import Mathlib

/-!
Verification of the HoleFilling program (Pixel.cpp, Hole.h, HoleFilling.cpp).

The C++ sources are embedded shallowly:
* a `Pixel` is a pair of `Int` coordinates together with its accumulated
  neighbour list (`std::vector<Pixel> _neighbours`; the pixels stored in that
  vector are always freshly constructed, so only their coordinates matter);
* an image (`float **image`) is a total function from coordinates to `ℚ`
  (floating-point values are modelled as exact rationals, the sentinel
  `MISSING_VALUE` is `-1`);
* `calculateHole`'s BFS loop becomes a well-founded recursion `bfsLoop`
  whose state is the pixel queue, the visited set and the hole built so far;
* `fillImageHole`'s in-place update loop becomes a fold over the interior
  list that threads the mutated grid;
* `std::sqrt` and `std::pow` in `defaultWeightedFunction` are injected as
  abstract function parameters, the way the weight function itself is a
  function-pointer parameter of `fillImageHole`.
-/

namespace HoleFilling

/-- A coordinate: X is a row index, Y a column index (`Pixel.h`). -/
abbrev Pos : Type := ℤ × ℤ

/-- `MISSING_VALUE` from `HoleFilling.cpp`: the sentinel marking a missing pixel. -/
def MISSING : ℚ := -1

/-- An image, `float **image`, as a total function from coordinates to values. -/
abbrev Grid : Type := Pos → ℚ

/-- The `Pixel` class: coordinates `_x`, `_y` plus the accumulated neighbour
list `_neighbours` (only coordinates of stored neighbours are kept, since the
C++ code only ever stores freshly-constructed pixels in the vector). -/
structure Pixel where
  x : ℤ
  y : ℤ
  neighbours : List Pos
deriving DecidableEq, Repr

/-- The coordinate of a pixel. -/
def Pixel.pos (p : Pixel) : Pos := (p.x, p.y)

/-- The `Hole` class: interior pixels (`_holePixels`) and boundary pixels
(`_holeBoundary`), in insertion order (`Hole.h`). -/
structure Hole where
  holePixels : List Pixel
  holeBoundary : List Pixel
deriving DecidableEq, Repr

/-- Coordinates of the hole's interior pixels, in insertion order. -/
def Hole.intPos (h : Hole) : List Pos := h.holePixels.map Pixel.pos

/-- Coordinates of the hole's boundary pixels, in insertion order. -/
def Hole.bndPos (h : Hole) : List Pos := h.holeBoundary.map Pixel.pos

/-- `p` lies strictly inside the image: `0 ≤ x < rows` and `0 ≤ y < cols`. -/
def inBounds (rows cols : ℤ) (p : Pos) : Prop :=
  0 ≤ p.1 ∧ p.1 < rows ∧ 0 ≤ p.2 ∧ p.2 < cols

instance (rows cols : ℤ) (p : Pos) : Decidable (inBounds rows cols p) := by
  unfold inBounds; infer_instance

/-- The finite set of in-bounds coordinates of a `rows × cols` image. -/
def cells (rows cols : ℤ) : Finset Pos :=
  Finset.Ico 0 rows ×ˢ Finset.Ico 0 cols

theorem mem_cells {rows cols : ℤ} {p : Pos} :
    p ∈ cells rows cols ↔ inBounds rows cols p := by
  simp [cells, inBounds, Finset.mem_product, and_assoc]

/-- The `connectivityMask` array `{1, -1}` of `Pixel::setNeighbours`. -/
def connectivityMask : List ℤ := [1, -1]

/-- Body of the first `for (int mask : connectivityMask)` loop of
`Pixel::setNeighbours`: appends the two 4-connectivity neighbours for `mask`
whose changed coordinate is in bounds. -/
def nbStep4 (x y mx my : ℤ) (acc : List Pos) (mask : ℤ) : List Pos :=
  let acc1 := if 0 ≤ x + mask ∧ x + mask < mx
    then acc ++ [(x + mask, y)] else acc
  if 0 ≤ y + mask ∧ y + mask < my
    then acc1 ++ [(x, y + mask)] else acc1

/-- Body of the second `for (int mask : connectivityMask)` loop of
`Pixel::setNeighbours` (run only for connectivity 8): appends the two
diagonal neighbours for `mask` whose coordinates are both in bounds. -/
def nbStep8 (x y mx my : ℤ) (acc : List Pos) (mask : ℤ) : List Pos :=
  if 0 ≤ x + mask ∧ x + mask < mx then
    let acc1 := if 0 ≤ y + mask ∧ y + mask < my
      then acc ++ [(x + mask, y + mask)] else acc
    if 0 ≤ y - mask ∧ y - mask < my
      then acc1 ++ [(x + mask, y - mask)] else acc1
  else acc

/-- `Pixel::setNeighbours` (Pixel.cpp): appends to `_neighbours` the in-bounds
4-connectivity neighbours and, when `connectivity == 8`, additionally the
in-bounds diagonal neighbours. -/
def setNeighbours (p : Pixel) (connectivity maxX maxY : ℤ) : Pixel :=
  let ns1 := connectivityMask.foldl (nbStep4 p.x p.y maxX maxY) p.neighbours
  let ns2 := if connectivity = 8
    then connectivityMask.foldl (nbStep8 p.x p.y maxX maxY) ns1
    else ns1
  ⟨p.x, p.y, ns2⟩

/-- The neighbour list contributed by one `setNeighbours` call for the pixel
at `(x, y)` (starting from an empty neighbour list). -/
def nbrList (connectivity x y maxX maxY : ℤ) : List Pos :=
  (setNeighbours ⟨x, y, []⟩ connectivity maxX maxY).neighbours

theorem setNeighbours_x (p : Pixel) (c mx my : ℤ) :
    (setNeighbours p c mx my).x = p.x := rfl

theorem setNeighbours_y (p : Pixel) (c mx my : ℤ) :
    (setNeighbours p c mx my).y = p.y := rfl

theorem nbStep4_append (x y mx my : ℤ) (acc : List Pos) (m : ℤ) :
    nbStep4 x y mx my acc m = acc ++ nbStep4 x y mx my [] m := by
  simp only [nbStep4]
  split_ifs <;> simp

theorem nbStep8_append (x y mx my : ℤ) (acc : List Pos) (m : ℤ) :
    nbStep8 x y mx my acc m = acc ++ nbStep8 x y mx my [] m := by
  simp only [nbStep8]
  split_ifs <;> simp

theorem foldl_append_of_step_append {β : Type} (f : List Pos → β → List Pos)
    (hf : ∀ acc m, f acc m = acc ++ f [] m) :
    ∀ (l : List β) (acc : List Pos), l.foldl f acc = acc ++ l.foldl f [] := by
  intro l
  induction l with
  | nil => intro acc; simp
  | cons m l ih =>
    intro acc
    rw [List.foldl_cons, List.foldl_cons, ih (f acc m), hf acc m, ih (f [] m),
      List.append_assoc]

/-- `setNeighbours` appends: the resulting neighbour list is the previous one
followed by the list a call on an empty-neighbour pixel would produce. -/
theorem setNeighbours_neighbours (p : Pixel) (c mx my : ℤ) :
    (setNeighbours p c mx my).neighbours
      = p.neighbours ++ nbrList c p.x p.y mx my := by
  simp only [setNeighbours, nbrList]
  split_ifs with hc
  · rw [foldl_append_of_step_append _ (nbStep4_append p.x p.y mx my) _ p.neighbours,
      foldl_append_of_step_append _ (nbStep8_append p.x p.y mx my),
      foldl_append_of_step_append _ (nbStep8_append p.x p.y mx my)
        _ (connectivityMask.foldl (nbStep4 p.x p.y mx my) []),
      List.append_assoc]
  · exact foldl_append_of_step_append _ (nbStep4_append p.x p.y mx my) _ p.neighbours

/-- Explicit form of the neighbour list produced by a single call. -/
theorem nbrList_eq (c x y mx my : ℤ) :
    nbrList c x y mx my =
      (nbStep4 x y mx my [] 1 ++ nbStep4 x y mx my [] (-1)) ++
      (if c = 8 then nbStep8 x y mx my [] 1 ++ nbStep8 x y mx my [] (-1)
       else []) := by
  simp only [nbrList, setNeighbours, connectivityMask, List.foldl_cons,
    List.foldl_nil]
  split_ifs with hc
  · rw [nbStep4_append x y mx my (nbStep4 x y mx my [] 1) (-1),
      nbStep8_append x y mx my _ (-1), nbStep8_append x y mx my _ 1]
    simp [List.append_assoc]
  · simp [nbStep4_append x y mx my (nbStep4 x y mx my [] 1) (-1)]

theorem mem_nbStep4_nil {x y mx my m : ℤ} {q : Pos} :
    q ∈ nbStep4 x y mx my [] m ↔
      (q = (x + m, y) ∧ 0 ≤ x + m ∧ x + m < mx) ∨
      (q = (x, y + m) ∧ 0 ≤ y + m ∧ y + m < my) := by
  simp only [nbStep4]
  split_ifs with h1 h2 <;> simp_all

theorem mem_nbStep8_nil {x y mx my m : ℤ} {q : Pos} :
    q ∈ nbStep8 x y mx my [] m ↔
      ((q = (x + m, y + m) ∧ 0 ≤ y + m ∧ y + m < my) ∨
       (q = (x + m, y - m) ∧ 0 ≤ y - m ∧ y - m < my)) ∧
      (0 ≤ x + m ∧ x + m < mx) := by
  simp only [nbStep8]
  split_ifs with h1 h2 h3 <;> simp_all

/-- Membership in the neighbour list of a single `setNeighbours` call:
exactly the offsets the source checks, each guarded by the bounds test the
source performs on it. -/
theorem mem_nbrList {c x y mx my : ℤ} {q : Pos} :
    q ∈ nbrList c x y mx my ↔
      ((q = (x + 1, y) ∧ 0 ≤ x + 1 ∧ x + 1 < mx) ∨
       (q = (x - 1, y) ∧ 0 ≤ x - 1 ∧ x - 1 < mx) ∨
       (q = (x, y + 1) ∧ 0 ≤ y + 1 ∧ y + 1 < my) ∨
       (q = (x, y - 1) ∧ 0 ≤ y - 1 ∧ y - 1 < my)) ∨
      (c = 8 ∧
       ((q = (x + 1, y + 1) ∧ (0 ≤ x + 1 ∧ x + 1 < mx) ∧ (0 ≤ y + 1 ∧ y + 1 < my)) ∨
        (q = (x + 1, y - 1) ∧ (0 ≤ x + 1 ∧ x + 1 < mx) ∧ (0 ≤ y - 1 ∧ y - 1 < my)) ∨
        (q = (x - 1, y - 1) ∧ (0 ≤ x - 1 ∧ x - 1 < mx) ∧ (0 ≤ y - 1 ∧ y - 1 < my)) ∨
        (q = (x - 1, y + 1) ∧ (0 ≤ x - 1 ∧ x - 1 < mx) ∧ (0 ≤ y + 1 ∧ y + 1 < my)))) := by
  rw [nbrList_eq]
  by_cases hc : c = 8
  · rw [if_pos hc]
    simp only [List.mem_append, mem_nbStep4_nil, mem_nbStep8_nil,
      ← sub_eq_add_neg, sub_neg_eq_add]
    constructor
    · intro h
      rcases h with ((h | h) | (h | h)) | (⟨h1 | h1, h2⟩ | ⟨h1 | h1, h2⟩)
      · exact Or.inl (Or.inl h)
      · exact Or.inl (Or.inr (Or.inr (Or.inl h)))
      · exact Or.inl (Or.inr (Or.inl h))
      · exact Or.inl (Or.inr (Or.inr (Or.inr h)))
      · exact Or.inr ⟨hc, Or.inl ⟨h1.1, h2, h1.2⟩⟩
      · exact Or.inr ⟨hc, Or.inr (Or.inl ⟨h1.1, h2, h1.2⟩)⟩
      · exact Or.inr ⟨hc, Or.inr (Or.inr (Or.inl ⟨h1.1, h2, h1.2⟩))⟩
      · exact Or.inr ⟨hc, Or.inr (Or.inr (Or.inr ⟨h1.1, h2, h1.2⟩))⟩
    · intro h
      rcases h with (h | h | h | h) | ⟨-, h | h | h | h⟩
      · exact Or.inl (Or.inl (Or.inl h))
      · exact Or.inl (Or.inr (Or.inl h))
      · exact Or.inl (Or.inl (Or.inr h))
      · exact Or.inl (Or.inr (Or.inr h))
      · exact Or.inr (Or.inl ⟨Or.inl ⟨h.1, h.2.2⟩, h.2.1⟩)
      · exact Or.inr (Or.inl ⟨Or.inr ⟨h.1, h.2.2⟩, h.2.1⟩)
      · exact Or.inr (Or.inr ⟨Or.inl ⟨h.1, h.2.2⟩, h.2.1⟩)
      · exact Or.inr (Or.inr ⟨Or.inr ⟨h.1, h.2.2⟩, h.2.1⟩)
  · rw [if_neg hc]
    simp only [List.append_nil, List.mem_append, mem_nbStep4_nil,
      ← sub_eq_add_neg, sub_neg_eq_add]
    constructor
    · intro h
      rcases h with (h | h) | (h | h)
      · exact Or.inl (Or.inl h)
      · exact Or.inl (Or.inr (Or.inr (Or.inl h)))
      · exact Or.inl (Or.inr (Or.inl h))
      · exact Or.inl (Or.inr (Or.inr (Or.inr h)))
    · intro h
      rcases h with (h | h | h | h) | ⟨h8, -⟩
      · exact Or.inl (Or.inl h)
      · exact Or.inr (Or.inl h)
      · exact Or.inl (Or.inr h)
      · exact Or.inr (Or.inr h)
      · exact absurd h8 hc

theorem nbrList_nodup (c x y mx my : ℤ) : (nbrList c x y mx my).Nodup := by
  rw [nbrList_eq]
  have h4 : ∀ m : ℤ, m ≠ 0 → (nbStep4 x y mx my [] m).Nodup := by
    intro m hm
    simp only [nbStep4]
    split_ifs <;> simp_all [Prod.ext_iff]
  have h8 : ∀ m : ℤ, m ≠ 0 → (nbStep8 x y mx my [] m).Nodup := by
    intro m hm
    simp only [nbStep8]
    split_ifs with hh1 hh2 hh3 <;> simp_all [Prod.ext_iff] <;> omega
  refine List.Nodup.append (List.Nodup.append (h4 1 one_ne_zero)
    (h4 (-1) (by norm_num)) ?_) ?_ ?_
  · intro p hp hq
    rw [mem_nbStep4_nil] at hp hq
    rcases hp with hp | hp <;> rcases hq with hq | hq <;>
      simp only [Prod.ext_iff] at hp hq <;> omega
  · split_ifs with hc
    · refine List.Nodup.append (h8 1 one_ne_zero) (h8 (-1) (by norm_num)) ?_
      intro p hp hq
      rw [mem_nbStep8_nil] at hp hq
      rcases hp.1 with hp1 | hp1 <;> rcases hq.1 with hq1 | hq1 <;>
        simp only [Prod.ext_iff] at hp1 hq1 <;> omega
    · simp
  · intro p hp hq
    split_ifs at hq with hc
    · rw [List.mem_append, mem_nbStep4_nil, mem_nbStep4_nil] at hp
      rw [List.mem_append, mem_nbStep8_nil, mem_nbStep8_nil] at hq
      rcases hp with (hp | hp) | (hp | hp) <;>
        rcases hq with ⟨hq1 | hq1, hq2⟩ | ⟨hq1 | hq1, hq2⟩ <;>
        simp only [Prod.ext_iff] at hp hq1 <;> omega
    · simp at hq

/-- Every coordinate in the single-call neighbour list of an in-bounds pixel
is itself in bounds. -/
theorem nbrList_inBounds {c x y mx my : ℤ} (hx : 0 ≤ x ∧ x < mx)
    (hy : 0 ≤ y ∧ y < my) : ∀ q ∈ nbrList c x y mx my, inBounds mx my q := by
  intro q hq
  rw [mem_nbrList] at hq
  unfold inBounds
  rcases hq with (⟨rfl, hb⟩ | ⟨rfl, hb⟩ | ⟨rfl, hb⟩ | ⟨rfl, hb⟩) |
    ⟨-, ⟨rfl, hb⟩ | ⟨rfl, hb⟩ | ⟨rfl, hb⟩ | ⟨rfl, hb⟩⟩ <;> omega

/-- Overhang of a queue entry `q`: the coordinates that a traversal starting
from `q` can reach even when `q` is out of bounds (the source bound-checks
only the changed coordinate of each neighbour), together with `q` itself. -/
def partE (rows cols : ℤ) (q : Pos) : Finset Pos :=
  (Finset.Ico 0 rows ×ˢ {q.2}) ∪ ({q.1} ×ˢ Finset.Ico 0 cols) ∪ {q}

theorem mem_partE {rows cols : ℤ} {q p : Pos} :
    p ∈ partE rows cols q ↔
      (0 ≤ p.1 ∧ p.1 < rows ∧ p.2 = q.2) ∨
      (p.1 = q.1 ∧ 0 ≤ p.2 ∧ p.2 < cols) ∨ p = q := by
  simp only [partE, Finset.mem_union, Finset.mem_product, Finset.mem_Ico,
    Finset.mem_singleton]
  tauto

/-- The finite region a traversal with the given queue can still visit:
all in-bounds cells plus the overhang of each queued coordinate. -/
def exCells (rows cols : ℤ) (queue : List Pos) : Finset Pos :=
  queue.foldr (fun q acc => partE rows cols q ∪ acc) (cells rows cols)

theorem mem_exCells {rows cols : ℤ} {queue : List Pos} {p : Pos} :
    p ∈ exCells rows cols queue ↔
      p ∈ cells rows cols ∨ ∃ q ∈ queue, p ∈ partE rows cols q := by
  induction queue with
  | nil => simp [exCells]
  | cons a l ih =>
    simp only [exCells, List.foldr_cons, Finset.mem_union]
    constructor
    · rintro (h | h)
      · exact Or.inr ⟨a, List.mem_cons_self a l, h⟩
      · rcases ih.mp h with h | ⟨q, hq, hpq⟩
        · exact Or.inl h
        · exact Or.inr ⟨q, List.mem_cons_of_mem _ hq, hpq⟩
    · rintro (h | ⟨q, hq, hpq⟩)
      · exact Or.inr (ih.mpr (Or.inl h))
      · rcases List.mem_cons.mp hq with rfl | hq1
        · exact Or.inl hpq
        · exact Or.inr (ih.mpr (Or.inr ⟨q, hq1, hpq⟩))

theorem cells_subset_exCells {rows cols : ℤ} {queue : List Pos} {p : Pos}
    (hp : p ∈ cells rows cols) : p ∈ exCells rows cols queue :=
  mem_exCells.mpr (Or.inl hp)

theorem partE_subset_exCells {rows cols : ℤ} {queue : List Pos} {q p : Pos}
    (hq : q ∈ queue) (hp : p ∈ partE rows cols q) : p ∈ exCells rows cols queue :=
  mem_exCells.mpr (Or.inr ⟨q, hq, hp⟩)

/-- Closure property of the overhang: every neighbour of `cur` lies in
`cells ∪ partE cur`, and so does the whole overhang of that neighbour. -/
theorem nbr_partE_closure {c rows cols : ℤ} {cur n : Pos}
    (hn : n ∈ nbrList c cur.1 cur.2 rows cols) :
    (n ∈ cells rows cols ∨ n ∈ partE rows cols cur) ∧
    (∀ p ∈ partE rows cols n, p ∈ cells rows cols ∨ p ∈ partE rows cols cur) := by
  rw [mem_nbrList] at hn
  constructor
  · rcases hn with (⟨rfl, hb⟩ | ⟨rfl, hb⟩ | ⟨rfl, hb⟩ | ⟨rfl, hb⟩) |
      ⟨-, ⟨rfl, hb⟩ | ⟨rfl, hb⟩ | ⟨rfl, hb⟩ | ⟨rfl, hb⟩⟩ <;>
      simp only [mem_cells, inBounds, mem_partE, Prod.ext_iff, and_true,
        true_and] <;> omega
  · intro p hp
    rw [mem_partE] at hp
    rcases hn with (⟨rfl, hb⟩ | ⟨rfl, hb⟩ | ⟨rfl, hb⟩ | ⟨rfl, hb⟩) |
      ⟨-, ⟨rfl, hb⟩ | ⟨rfl, hb⟩ | ⟨rfl, hb⟩ | ⟨rfl, hb⟩⟩ <;>
      simp only [mem_cells, inBounds, mem_partE, Prod.ext_iff, and_true,
        true_and] at * <;> omega

/-- The body of the neighbour loop of `calculateHole` (HoleFilling.cpp,
`for (const Pixel &neighbour : currentPixel.getNeighbours())`): scans the
remaining neighbour coordinates `ns`; an unvisited neighbour is marked
visited and then either pushed on the queue (sentinel value) or appended to
the hole boundary (non-sentinel value). -/
def processNeighbours (g : Grid) (ns : List Pos) (queue : List Pos)
    (visited : Finset Pos) (bnd : List Pixel) :
    List Pos × Finset Pos × List Pixel :=
  match ns with
  | [] => (queue, visited, bnd)
  | n :: rest =>
    if n ∈ visited then
      processNeighbours g rest queue visited bnd
    else if g n = MISSING then
      processNeighbours g rest (queue ++ [n]) (insert n visited) bnd
    else
      processNeighbours g rest queue (insert n visited) (bnd ++ [⟨n.1, n.2, []⟩])

theorem pn_visited (g : Grid) (ns : List Pos) :
    ∀ (queue : List Pos) (visited : Finset Pos) (bnd : List Pixel),
      (processNeighbours g ns queue visited bnd).2.1 = visited ∪ ns.toFinset := by
  induction ns with
  | nil => intro q v b; simp [processNeighbours]
  | cons n rest ih =>
    intro q v b
    simp only [processNeighbours]
    split_ifs with h1 h2 <;> rw [ih] <;> ext p <;>
      simp only [Finset.mem_union, Finset.mem_insert, List.toFinset_cons]
    · constructor
      · rintro (h | h)
        · exact Or.inl h
        · exact Or.inr (Or.inr h)
      · rintro (h | rfl | h)
        · exact Or.inl h
        · exact Or.inl h1
        · exact Or.inr h
    · tauto
    · tauto

theorem pn_queue_mem (g : Grid) (ns : List Pos) :
    ∀ (queue : List Pos) (visited : Finset Pos) (bnd : List Pixel) (p : Pos),
      p ∈ (processNeighbours g ns queue visited bnd).1 ↔
        p ∈ queue ∨ (p ∈ ns ∧ p ∉ visited ∧ g p = MISSING) := by
  induction ns with
  | nil => intro q v b p; simp [processNeighbours]
  | cons n rest ih =>
    intro q v b p
    simp only [processNeighbours]
    split_ifs with h1 h2 <;> rw [ih] <;>
      simp only [List.mem_append, List.mem_singleton, List.mem_cons,
        Finset.mem_insert] <;> by_cases hp : p = n <;> subst_eqs <;> tauto

theorem pn_bnd_mem (g : Grid) (ns : List Pos) :
    ∀ (queue : List Pos) (visited : Finset Pos) (bnd : List Pixel) (px : Pixel),
      px ∈ (processNeighbours g ns queue visited bnd).2.2 ↔
        px ∈ bnd ∨ (px.neighbours = [] ∧ px.pos ∈ ns ∧ px.pos ∉ visited ∧
          g px.pos ≠ MISSING) := by
  induction ns with
  | nil => intro q v b px; simp [processNeighbours]
  | cons n rest ih =>
    intro q v b px
    simp only [processNeighbours]
    split_ifs with h1 h2
    · rw [ih]
      constructor
      · rintro (h | ⟨hnb, hns, hv, hg⟩)
        · exact Or.inl h
        · exact Or.inr ⟨hnb, List.mem_cons_of_mem _ hns, hv, hg⟩
      · rintro (h | ⟨hnb, hns, hv, hg⟩)
        · exact Or.inl h
        · rcases List.mem_cons.mp hns with heq | hns1
          · exact absurd (heq ▸ h1) hv
          · exact Or.inr ⟨hnb, hns1, hv, hg⟩
    · rw [ih]
      constructor
      · rintro (h | ⟨hnb, hns, hv, hg⟩)
        · exact Or.inl h
        · exact Or.inr ⟨hnb, List.mem_cons_of_mem _ hns,
            fun hh => hv (Finset.mem_insert_of_mem hh), hg⟩
      · rintro (h | ⟨hnb, hns, hv, hg⟩)
        · exact Or.inl h
        · rcases List.mem_cons.mp hns with heq | hns1
          · exact absurd (heq ▸ h2) hg
          · refine Or.inr ⟨hnb, hns1, ?_, hg⟩
            intro hh
            rcases Finset.mem_insert.mp hh with heq | hh1
            · exact hg (heq ▸ h2)
            · exact hv hh1
    · rw [ih]
      constructor
      · rintro (h | ⟨hnb, hns, hv, hg⟩)
        · rcases List.mem_append.mp h with h | h
          · exact Or.inl h
          · simp only [List.mem_singleton] at h
            subst h
            exact Or.inr ⟨rfl, List.mem_cons_self n rest, h1, h2⟩
        · exact Or.inr ⟨hnb, List.mem_cons_of_mem _ hns,
            fun hh => hv (Finset.mem_insert_of_mem hh), hg⟩
      · rintro (h | ⟨hnb, hns, hv, hg⟩)
        · exact Or.inl (List.mem_append_left _ h)
        · by_cases hpn : px.pos = n
          · left
            apply List.mem_append_right
            simp only [List.mem_singleton]
            cases px with
            | mk a b1 nb =>
              simp only [Pixel.pos, Prod.ext_iff] at hpn
              simp only [List.nil_eq] at hnb
              simp [hpn.1, hpn.2, ← hnb]
          · rcases List.mem_cons.mp hns with heq | hns1
            · exact absurd heq hpn
            · refine Or.inr ⟨hnb, hns1, ?_, hg⟩
              intro hh
              rcases Finset.mem_insert.mp hh with heq | hh1
              · exact hpn heq
              · exact hv hh1

theorem pn_queue_nodup (g : Grid) (ns : List Pos) :
    ∀ (queue : List Pos) (visited : Finset Pos) (bnd : List Pixel),
      queue.Nodup → (∀ p ∈ queue, p ∈ visited) →
      (processNeighbours g ns queue visited bnd).1.Nodup := by
  induction ns with
  | nil => intro q v b hq hv; simpa [processNeighbours] using hq
  | cons n rest ih =>
    intro q v b hq hv
    simp only [processNeighbours]
    split_ifs with h1 h2
    · exact ih q v b hq hv
    · apply ih
      · simp only [List.nodup_append, List.nodup_cons, List.nodup_nil]
        exact ⟨hq, by simp, by intro p hp hpn; simp at hpn; subst hpn; exact h1 (hv _ hp)⟩
      · intro p hp
        rcases List.mem_append.mp hp with h | h
        · exact Finset.mem_insert_of_mem (hv _ h)
        · simp at h; subst h; exact Finset.mem_insert_self _ _
    · apply ih _ _ _ hq
      intro p hp
      exact Finset.mem_insert_of_mem (hv _ hp)

theorem pn_bnd_nodup (g : Grid) (ns : List Pos) :
    ∀ (queue : List Pos) (visited : Finset Pos) (bnd : List Pixel),
      (bnd.map Pixel.pos).Nodup → (∀ px ∈ bnd, px.pos ∈ visited) →
      ((processNeighbours g ns queue visited bnd).2.2.map Pixel.pos).Nodup := by
  induction ns with
  | nil => intro q v b hb hv; simpa [processNeighbours] using hb
  | cons n rest ih =>
    intro q v b hb hv
    simp only [processNeighbours]
    split_ifs with h1 h2
    · exact ih q v b hb hv
    · apply ih _ _ _ hb
      intro px hp
      exact Finset.mem_insert_of_mem (hv _ hp)
    · apply ih
      · simp only [List.map_append, List.map_cons, List.map_nil,
          List.nodup_append, List.nodup_cons, List.nodup_nil]
        refine ⟨hb, by simp, ?_⟩
        intro p hp hpn
        simp only [List.mem_singleton] at hpn
        rcases List.mem_map.mp hp with ⟨px, hpx, rfl⟩
        have hpos : px.pos = n := by
          rw [hpn]; simp [Pixel.pos]
        exact h1 (hpos ▸ hv _ hpx)
      · intro px hp
        rcases List.mem_append.mp hp with h | h
        · exact Finset.mem_insert_of_mem (hv _ h)
        · simp at h; subst h
          have : (Pixel.mk n.1 n.2 []).pos = n := by simp [Pixel.pos]
          rw [this]
          exact Finset.mem_insert_self _ _

theorem pn_bnd_prefix (g : Grid) (ns : List Pos) :
    ∀ (queue : List Pos) (visited : Finset Pos) (bnd : List Pixel),
      ∃ tail, (processNeighbours g ns queue visited bnd).2.2 = bnd ++ tail := by
  induction ns with
  | nil => intro q v b; exact ⟨[], by simp [processNeighbours]⟩
  | cons n rest ih =>
    intro q v b
    simp only [processNeighbours]
    split_ifs with h1 h2
    · exact ih q v b
    · exact ih _ _ _
    · obtain ⟨t, ht⟩ := ih q (insert n v) (b ++ [⟨n.1, n.2, []⟩])
      exact ⟨⟨n.1, n.2, []⟩ :: t, by rw [ht, List.append_assoc]; rfl⟩

/-- Measure bound for the neighbour scan: relative to any finite region `E`
containing all scanned coordinates, twice the unvisited count plus the queue
length never increases. -/
theorem pn_measure (g : Grid) (ns : List Pos) :
    ∀ (queue : List Pos) (visited : Finset Pos) (bnd : List Pixel)
      (E : Finset Pos), (∀ n ∈ ns, n ∈ E) →
      2 * ((E \ (processNeighbours g ns queue visited bnd).2.1).card) +
        (processNeighbours g ns queue visited bnd).1.length ≤
      2 * ((E \ visited).card) + queue.length := by
  induction ns with
  | nil => intro q v b E hE; simp [processNeighbours]
  | cons n rest ih =>
    intro q v b E hE
    have hnE : n ∈ E := hE n (List.mem_cons_self n rest)
    have hrest : ∀ m ∈ rest, m ∈ E := fun m hm => hE m (List.mem_cons_of_mem n hm)
    simp only [processNeighbours]
    split_ifs with h1 h2
    · exact ih q v b E hrest
    · calc 2 * ((E \ (processNeighbours g rest (q ++ [n]) (insert n v) b).2.1).card) +
            (processNeighbours g rest (q ++ [n]) (insert n v) b).1.length
          ≤ 2 * ((E \ insert n v).card) + (q ++ [n]).length := ih _ _ _ E hrest
        _ ≤ 2 * ((E \ v).card) + q.length := by
            have hcard : (E \ insert n v).card + 1 = (E \ v).card := by
              rw [Finset.sdiff_insert]
              rw [Finset.card_erase_add_one]
              exact Finset.mem_sdiff.mpr ⟨hnE, h1⟩
            simp only [List.length_append, List.length_singleton]
            omega
    · calc 2 * ((E \ (processNeighbours g rest q (insert n v) _).2.1).card) +
            (processNeighbours g rest q (insert n v) _).1.length
          ≤ 2 * ((E \ insert n v).card) + q.length := ih _ _ _ E hrest
        _ ≤ 2 * ((E \ v).card) + q.length := by
            have hcard : (E \ insert n v).card + 1 = (E \ v).card := by
              rw [Finset.sdiff_insert]
              rw [Finset.card_erase_add_one]
              exact Finset.mem_sdiff.mpr ⟨hnE, h1⟩
            omega

/-- The doubled neighbour list scanned by the BFS: `calculateHole` calls
`setNeighbours` twice on the popped pixel, so the scanned list is the
single-call list repeated twice. -/
theorem double_setNeighbours (c mx my : ℤ) (a b : ℤ) :
    (setNeighbours (setNeighbours ⟨a, b, []⟩ c mx my) c mx my).neighbours
      = nbrList c a b mx my ++ nbrList c a b mx my := by
  rw [setNeighbours_neighbours, setNeighbours_x, setNeighbours_y]
  rfl

/-- The `while(!pixelQueue.empty())` loop of `calculateHole`
(HoleFilling.cpp lines 228-264).  State: the queue of pending coordinates
(every pixel in the C++ queue carries an empty neighbour list, so only its
coordinates are recorded), the visited matrix as a finite set of coordinates,
and the interior and boundary lists built so far.  A loop iteration pops the
front pixel, marks it visited, calls `setNeighbours` on it, stores that copy
in the interior list, calls `setNeighbours` a second time and scans the
(doubled) neighbour list with `processNeighbours`. -/
def bfsLoop (g : Grid) (conn rows cols : ℤ) (queue : List Pos)
    (visited : Finset Pos) (intr bnd : List Pixel) : Hole :=
  match queue with
  | [] => ⟨intr, bnd⟩
  | cur :: rest =>
    let visited1 := insert cur visited
    let cur1 := setNeighbours ⟨cur.1, cur.2, []⟩ conn rows cols
    let cur2 := setNeighbours cur1 conn rows cols
    let next := processNeighbours g cur2.neighbours rest visited1 bnd
    bfsLoop g conn rows cols next.1 next.2.1 (intr ++ [cur1]) next.2.2
termination_by 2 * ((exCells rows cols queue \ visited).card) + queue.length
decreasing_by
  have hdub : (setNeighbours (setNeighbours ⟨n.1, n.2, []⟩ conn rows cols)
      conn rows cols).neighbours
      = nbrList conn n.1 n.2 rows cols ++ nbrList conn n.1 n.2 rows cols :=
    double_setNeighbours _ _ _ _ _
  have hns : ∀ m ∈ (setNeighbours (setNeighbours ⟨n.1, n.2, []⟩ conn rows cols)
      conn rows cols).neighbours, m ∈ exCells rows cols (n :: rest) := by
    intro m hm
    rw [hdub, List.mem_append, or_self] at hm
    rcases (nbr_partE_closure hm).1 with h | h
    · exact cells_subset_exCells h
    · exact partE_subset_exCells (List.mem_cons_self n rest) h
  have hsub : exCells rows cols
      (processNeighbours g (setNeighbours (setNeighbours ⟨n.1, n.2, []⟩ conn
        rows cols) conn rows cols).neighbours rest (insert n visited) bnd).1 ⊆
      exCells rows cols (n :: rest) := by
    intro p hp
    rcases mem_exCells.mp hp with h | ⟨q, hq, hpq⟩
    · exact cells_subset_exCells h
    · rcases (pn_queue_mem g _ rest (insert n visited) bnd q).mp hq with
        h | ⟨hql, -, -⟩
      · exact partE_subset_exCells (List.mem_cons_of_mem n h) hpq
      · rw [hdub, List.mem_append, or_self] at hql
        rcases (nbr_partE_closure hql).2 p hpq with h | h
        · exact cells_subset_exCells h
        · exact partE_subset_exCells (List.mem_cons_self n rest) h
  have h1 := Finset.card_le_card (Finset.sdiff_subset_sdiff hsub
    (le_refl (processNeighbours g (setNeighbours (setNeighbours ⟨n.1, n.2, []⟩
      conn rows cols) conn rows cols).neighbours rest (insert n visited) bnd).2.1))
  have h2 := pn_measure g (setNeighbours (setNeighbours ⟨n.1, n.2, []⟩ conn
    rows cols) conn rows cols).neighbours rest (insert n visited) bnd
    (exCells rows cols (n :: rest)) hns
  have h3 : (exCells rows cols (n :: rest) \ insert n visited).card ≤
      (exCells rows cols (n :: rest) \ visited).card := by
    apply Finset.card_le_card
    apply Finset.sdiff_subset_sdiff (le_refl _)
    intro p hp
    exact Finset.mem_insert_of_mem hp
  simp only [List.length_cons]
  omega

/-- `calculateHole` (HoleFilling.cpp lines 207-276): BFS from the given
missing pixel.  The queue starts holding the seed, the visited matrix starts
all false, and the hole starts empty. -/
def calculateHole (g : Grid) (conn rows cols : ℤ) (missingPixel : Pos) : Hole :=
  bfsLoop g conn rows cols [missingPixel] ∅ [] []

theorem Pixel.pos_mk (a b : ℤ) (nb : List Pos) :
    (Pixel.mk a b nb).pos = (a, b) := rfl

theorem setNeighbours_pos (n : Pos) (c mx my : ℤ) :
    (setNeighbours ⟨n.1, n.2, []⟩ c mx my).pos = n := by
  simp [Pixel.pos, setNeighbours_x, setNeighbours_y]

/-- Position-level membership in the boundary list after a neighbour scan. -/
theorem pn_bndPos_mem (g : Grid) (ns : List Pos) (queue : List Pos)
    (visited : Finset Pos) (bnd : List Pixel) (p : Pos) :
    p ∈ (processNeighbours g ns queue visited bnd).2.2.map Pixel.pos ↔
      p ∈ bnd.map Pixel.pos ∨ (p ∈ ns ∧ p ∉ visited ∧ g p ≠ MISSING) := by
  constructor
  · intro hp
    rcases List.mem_map.mp hp with ⟨px, hpx, rfl⟩
    rcases (pn_bnd_mem g ns queue visited bnd px).mp hpx with h | ⟨-, hns, hv, hg⟩
    · exact Or.inl (List.mem_map_of_mem _ h)
    · exact Or.inr ⟨hns, hv, hg⟩
  · rintro (h | ⟨hns, hv, hg⟩)
    · rcases List.mem_map.mp h with ⟨px, hpx, rfl⟩
      exact List.mem_map_of_mem _
        ((pn_bnd_mem g ns queue visited bnd px).mpr (Or.inl hpx))
    · refine List.mem_map.mpr ⟨⟨p.1, p.2, []⟩, ?_, ?_⟩
      · refine (pn_bnd_mem g ns queue visited bnd _).mpr (Or.inr ⟨rfl, ?_, ?_, ?_⟩)
        · rw [Pixel.pos_mk]; exact hns
        · rw [Pixel.pos_mk]; exact hv
        · rw [Pixel.pos_mk]; exact hg
      · rw [Pixel.pos_mk]

/-- The coordinates `calculateHole`'s BFS can enqueue: the seed itself, and
every sentinel-valued coordinate adjacent (under the chosen connectivity) to
an enqueueable coordinate. -/
inductive InteriorPos (g : Grid) (conn rows cols : ℤ) (seed : Pos) : Pos → Prop
  | base : InteriorPos g conn rows cols seed seed
  | step {p q : Pos} : InteriorPos g conn rows cols seed p →
      q ∈ nbrList conn p.1 p.2 rows cols → g q = MISSING →
      InteriorPos g conn rows cols seed q

/-- Monotonicity of enqueueability in the connectivity: every coordinate a
4-connected traversal can reach, an 8-connected traversal can reach. -/
theorem InteriorPos.mono_conn {g : Grid} {rows cols : ℤ} {seed p : Pos}
    (h : InteriorPos g 4 rows cols seed p) : InteriorPos g 8 rows cols seed p := by
  induction h with
  | base => exact .base
  | step hp hq hv ih =>
    refine .step ih ?_ hv
    rw [mem_nbrList] at hq ⊢
    rcases hq with h | h
    · exact Or.inl h
    · exact absurd h.1 (by norm_num)

/-- Loop invariant of the BFS in `calculateHole`, tying the queue, the
visited set and the partially built hole together. -/
structure BfsInv (g : Grid) (conn rows cols : ℤ) (seed : Pos)
    (queue : List Pos) (visited : Finset Pos) (intr bnd : List Pixel) : Prop where
  queue_nodup : queue.Nodup
  queue_vis : ∀ p ∈ queue, p ∈ visited
  intr_vis : ∀ px ∈ intr, px.pos ∈ visited
  bnd_vis : ∀ px ∈ bnd, px.pos ∈ visited
  intr_nodup : (intr.map Pixel.pos).Nodup
  bnd_nodup : (bnd.map Pixel.pos).Nodup
  queue_intr : ∀ p ∈ queue, p ∉ intr.map Pixel.pos
  queue_bnd : ∀ p ∈ queue, p ∉ bnd.map Pixel.pos
  intr_bnd : ∀ p ∈ intr.map Pixel.pos, p ∉ bnd.map Pixel.pos
  queue_reach : ∀ p ∈ queue, InteriorPos g conn rows cols seed p
  intr_reach : ∀ px ∈ intr, InteriorPos g conn rows cols seed px.pos
  queue_val : ∀ p ∈ queue, g p = MISSING ∨ p = seed
  intr_val : ∀ px ∈ intr, g px.pos = MISSING ∨ px.pos = seed
  bnd_val : ∀ px ∈ bnd, g px.pos ≠ MISSING
  vis_cover : ∀ p ∈ visited,
    p ∈ queue ∨ p ∈ intr.map Pixel.pos ∨ p ∈ bnd.map Pixel.pos
  intr_closed : ∀ px ∈ intr, ∀ q ∈ nbrList conn px.x px.y rows cols,
    g q = MISSING → q ∈ visited
  seed_mem : seed ∈ queue ∨ seed ∈ intr.map Pixel.pos
  intr_nbs : ∀ px ∈ intr, px.neighbours = nbrList conn px.x px.y rows cols
  inb : inBounds rows cols seed →
    (∀ p ∈ queue, inBounds rows cols p) ∧ (∀ px ∈ intr, inBounds rows cols px.pos)

/-- What holds of the hole returned by the BFS when started in a state
satisfying the loop invariant. -/
structure BfsFinal (g : Grid) (conn rows cols : ℤ) (seed : Pos) (h : Hole) : Prop where
  intr_nodup : h.intPos.Nodup
  bnd_nodup : h.bndPos.Nodup
  intr_bnd : ∀ p ∈ h.intPos, p ∉ h.bndPos
  intr_val : ∀ p ∈ h.intPos, g p = MISSING ∨ p = seed
  bnd_val : ∀ p ∈ h.bndPos, g p ≠ MISSING
  intr_reach : ∀ p ∈ h.intPos, InteriorPos g conn rows cols seed p
  reach_intr : ∀ p, InteriorPos g conn rows cols seed p → p ∈ h.intPos
  intr_nbs : ∀ px ∈ h.holePixels, px.neighbours = nbrList conn px.x px.y rows cols
  inb : inBounds rows cols seed → ∀ p ∈ h.intPos, inBounds rows cols p

/-- Starting the BFS with the seed already marked visited gives the same
result: the first loop iteration marks the popped seed visited anyway. -/
theorem bfsLoop_start (g : Grid) (conn rows cols : ℤ) (p : Pos) :
    bfsLoop g conn rows cols [p] ∅ [] [] =
    bfsLoop g conn rows cols [p] {p} [] [] := by
  conv_lhs => rw [bfsLoop]
  conv_rhs => rw [bfsLoop]
  rw [Finset.insert_eq_self.mpr (Finset.mem_singleton_self p),
    show ({p} : Finset Pos) = insert p ∅ from rfl]

/-- One BFS iteration preserves the loop invariant. -/
theorem bfsInv_step (g : Grid) (conn rows cols : ℤ) (seed : Pos) (n : Pos)
    (rest : List Pos) (visited : Finset Pos) (intr bnd : List Pixel)
    (inv : BfsInv g conn rows cols seed (n :: rest) visited intr bnd) :
    BfsInv g conn rows cols seed
      (processNeighbours g (setNeighbours (setNeighbours ⟨n.1, n.2, []⟩ conn
        rows cols) conn rows cols).neighbours rest (insert n visited) bnd).1
      (processNeighbours g (setNeighbours (setNeighbours ⟨n.1, n.2, []⟩ conn
        rows cols) conn rows cols).neighbours rest (insert n visited) bnd).2.1
      (intr ++ [setNeighbours ⟨n.1, n.2, []⟩ conn rows cols])
      (processNeighbours g (setNeighbours (setNeighbours ⟨n.1, n.2, []⟩ conn
        rows cols) conn rows cols).neighbours rest (insert n visited) bnd).2.2 := by
  have hn_q : n ∈ n :: rest := List.mem_cons_self n rest
  have hnrest : n ∉ rest := (List.nodup_cons.mp inv.queue_nodup).1
  have hrest_nodup : rest.Nodup := (List.nodup_cons.mp inv.queue_nodup).2
  set L := nbrList conn n.1 n.2 rows cols with hLdef
  set NS := (setNeighbours (setNeighbours ⟨n.1, n.2, []⟩ conn rows cols) conn
    rows cols).neighbours with hNSdef
  set C1 := setNeighbours ⟨n.1, n.2, []⟩ conn rows cols with hC1def
  have hC1pos : C1.pos = n := setNeighbours_pos n conn rows cols
  have hC1x : C1.x = n.1 := rfl
  have hC1y : C1.y = n.2 := rfl
  have hC1nb : C1.neighbours = L := rfl
  have hNS : ∀ p : Pos, p ∈ NS ↔ p ∈ L := by
    intro p
    rw [hNSdef, double_setNeighbours, List.mem_append, or_self]
  set R := processNeighbours g NS rest (insert n visited) bnd with hRdef
  have hvis : R.2.1 = insert n visited ∪ NS.toFinset :=
    pn_visited g NS rest (insert n visited) bnd
  have hq : ∀ p : Pos, p ∈ R.1 ↔
      p ∈ rest ∨ (p ∈ NS ∧ p ∉ insert n visited ∧ g p = MISSING) :=
    fun p => pn_queue_mem g NS rest (insert n visited) bnd p
  have hbp : ∀ p : Pos, p ∈ R.2.2.map Pixel.pos ↔
      p ∈ bnd.map Pixel.pos ∨ (p ∈ NS ∧ p ∉ insert n visited ∧ g p ≠ MISSING) :=
    fun p => pn_bndPos_mem g NS rest (insert n visited) bnd p
  have hb : ∀ px : Pixel, px ∈ R.2.2 ↔
      px ∈ bnd ∨ (px.neighbours = [] ∧ px.pos ∈ NS ∧ px.pos ∉ insert n visited ∧
        g px.pos ≠ MISSING) :=
    fun px => pn_bnd_mem g NS rest (insert n visited) bnd px
  have hrest_vis : ∀ p ∈ rest, p ∈ insert n visited :=
    fun p hp => Finset.mem_insert_of_mem (inv.queue_vis p (List.mem_cons_of_mem n hp))
  have hintr_pos : (intr ++ [C1]).map Pixel.pos = intr.map Pixel.pos ++ [n] := by
    rw [List.map_append, List.map_cons, List.map_nil, hC1pos]
  have hmem_intr1 : ∀ p : Pos, p ∈ (intr ++ [C1]).map Pixel.pos ↔
      p ∈ intr.map Pixel.pos ∨ p = n := by
    intro p
    rw [hintr_pos, List.mem_append, List.mem_singleton]
  refine ⟨?_, ?_, ?_, ?_, ?_, ?_, ?_, ?_, ?_, ?_, ?_, ?_, ?_, ?_, ?_, ?_, ?_, ?_, ?_⟩
  · exact pn_queue_nodup g NS rest (insert n visited) bnd hrest_nodup hrest_vis
  · intro p hp
    rw [hvis]
    rcases (hq p).mp hp with h | ⟨h, -, -⟩
    · exact Finset.mem_union_left _ (hrest_vis p h)
    · exact Finset.mem_union_right _ (List.mem_toFinset.mpr h)
  · intro px hpx
    rw [hvis]
    rcases List.mem_append.mp hpx with h | h
    · exact Finset.mem_union_left _
        (Finset.mem_insert_of_mem (inv.intr_vis px h))
    · rw [List.mem_singleton] at h
      subst h
      rw [hC1pos]
      exact Finset.mem_union_left _ (Finset.mem_insert_self n visited)
  · intro px hpx
    rw [hvis]
    rcases (hb px).mp hpx with h | ⟨-, h, -, -⟩
    · exact Finset.mem_union_left _
        (Finset.mem_insert_of_mem (inv.bnd_vis px h))
    · exact Finset.mem_union_right _ (List.mem_toFinset.mpr h)
  · rw [hintr_pos]
    apply List.Nodup.append inv.intr_nodup (List.nodup_singleton n)
    intro p hp hpn
    rw [List.mem_singleton] at hpn
    subst hpn
    exact inv.queue_intr p hn_q hp
  · exact pn_bnd_nodup g NS rest (insert n visited) bnd inv.bnd_nodup
      (fun px hpx => Finset.mem_insert_of_mem (inv.bnd_vis px hpx))
  · intro p hp hmem
    rcases (hmem_intr1 p).mp hmem with h | rfl
    · rcases (hq p).mp hp with h1 | ⟨-, h1, -⟩
      · exact inv.queue_intr p (List.mem_cons_of_mem n h1) h
      · rcases List.mem_map.mp h with ⟨px, hpx, hpe⟩
        exact h1 (Finset.mem_insert_of_mem (hpe ▸ inv.intr_vis px hpx))
    · rcases (hq p).mp hp with h1 | ⟨-, h1, -⟩
      · exact hnrest h1
      · exact h1 (Finset.mem_insert_self p visited)
  · intro p hp hmem
    rcases (hq p).mp hp with h1 | ⟨-, h1, h2⟩
    · rcases (hbp p).mp hmem with h | ⟨-, h, -⟩
      · exact inv.queue_bnd p (List.mem_cons_of_mem n h1) h
      · exact h (hrest_vis p h1)
    · rcases (hbp p).mp hmem with h | ⟨-, -, h⟩
      · rcases List.mem_map.mp h with ⟨px, hpx, hpe⟩
        exact h1 (Finset.mem_insert_of_mem (hpe ▸ inv.bnd_vis px hpx))
      · exact h h2
  · intro p hmem hbnd
    rcases (hmem_intr1 p).mp hmem with h | rfl
    · rcases (hbp p).mp hbnd with h1 | ⟨-, h1, -⟩
      · exact inv.intr_bnd p h h1
      · rcases List.mem_map.mp h with ⟨px, hpx, hpe⟩
        exact h1 (Finset.mem_insert_of_mem (hpe ▸ inv.intr_vis px hpx))
    · rcases (hbp p).mp hbnd with h1 | ⟨-, h1, -⟩
      · exact inv.queue_bnd p hn_q h1
      · exact h1 (Finset.mem_insert_self p visited)
  · intro p hp
    rcases (hq p).mp hp with h | ⟨h1, -, h2⟩
    · exact inv.queue_reach p (List.mem_cons_of_mem n h)
    · exact InteriorPos.step (inv.queue_reach n hn_q) ((hNS p).mp h1) h2
  · intro px hpx
    rcases List.mem_append.mp hpx with h | h
    · exact inv.intr_reach px h
    · rw [List.mem_singleton] at h
      subst h
      rw [hC1pos]
      exact inv.queue_reach n hn_q
  · intro p hp
    rcases (hq p).mp hp with h | ⟨-, -, h⟩
    · exact inv.queue_val p (List.mem_cons_of_mem n h)
    · exact Or.inl h
  · intro px hpx
    rcases List.mem_append.mp hpx with h | h
    · exact inv.intr_val px h
    · rw [List.mem_singleton] at h
      subst h
      rw [hC1pos]
      exact inv.queue_val n hn_q
  · intro px hpx
    rcases (hb px).mp hpx with h | ⟨-, -, -, h⟩
    · exact inv.bnd_val px h
    · exact h
  · intro p hp
    rw [hvis, Finset.mem_union] at hp
    rcases hp with hp | hp
    · rcases Finset.mem_insert.mp hp with rfl | hp
      · exact Or.inr (Or.inl ((hmem_intr1 p).mpr (Or.inr rfl)))
      · rcases inv.vis_cover p hp with h | h | h
        · rcases List.mem_cons.mp h with rfl | h
          · exact Or.inr (Or.inl ((hmem_intr1 p).mpr (Or.inr rfl)))
          · exact Or.inl ((hq p).mpr (Or.inl h))
        · exact Or.inr (Or.inl ((hmem_intr1 p).mpr (Or.inl h)))
        · exact Or.inr (Or.inr ((hbp p).mpr (Or.inl h)))
    · rw [List.mem_toFinset] at hp
      by_cases hv : p ∈ insert n visited
      · rcases Finset.mem_insert.mp hv with rfl | hv1
        · exact Or.inr (Or.inl ((hmem_intr1 p).mpr (Or.inr rfl)))
        · rcases inv.vis_cover p hv1 with h | h | h
          · rcases List.mem_cons.mp h with rfl | h
            · exact Or.inr (Or.inl ((hmem_intr1 p).mpr (Or.inr rfl)))
            · exact Or.inl ((hq p).mpr (Or.inl h))
          · exact Or.inr (Or.inl ((hmem_intr1 p).mpr (Or.inl h)))
          · exact Or.inr (Or.inr ((hbp p).mpr (Or.inl h)))
      · by_cases hg : g p = MISSING
        · exact Or.inl ((hq p).mpr (Or.inr ⟨hp, hv, hg⟩))
        · exact Or.inr (Or.inr ((hbp p).mpr (Or.inr ⟨hp, hv, hg⟩)))
  · intro px hpx q hq1 hg1
    rw [hvis]
    rcases List.mem_append.mp hpx with h | h
    · exact Finset.mem_union_left _
        (Finset.mem_insert_of_mem (inv.intr_closed px h q hq1 hg1))
    · rw [List.mem_singleton] at h
      subst h
      rw [hC1x, hC1y] at hq1
      exact Finset.mem_union_right _
        (List.mem_toFinset.mpr ((hNS q).mpr hq1))
  · rcases inv.seed_mem with h | h
    · rcases List.mem_cons.mp h with rfl | h
      · exact Or.inr ((hmem_intr1 seed).mpr (Or.inr rfl))
      · exact Or.inl ((hq seed).mpr (Or.inl h))
    · exact Or.inr ((hmem_intr1 seed).mpr (Or.inl h))
  · intro px hpx
    rcases List.mem_append.mp hpx with h | h
    · exact inv.intr_nbs px h
    · rw [List.mem_singleton] at h
      subst h
      rw [hC1x, hC1y]
      exact hC1nb
  · intro hseed
    obtain ⟨hqb, hib⟩ := inv.inb hseed
    have hnb : inBounds rows cols n := hqb n hn_q
    constructor
    · intro p hp
      rcases (hq p).mp hp with h | ⟨h, -, -⟩
      · exact hqb p (List.mem_cons_of_mem n h)
      · exact nbrList_inBounds ⟨hnb.1, hnb.2.1⟩ ⟨hnb.2.2.1, hnb.2.2.2⟩ p
          ((hNS p).mp h)
    · intro px hpx
      rcases List.mem_append.mp hpx with h | h
      · exact hib px h
      · rw [List.mem_singleton] at h
        subst h
        rw [hC1pos]
        exact hnb

/-- Started in any state satisfying the loop invariant, the BFS returns a
hole satisfying `BfsFinal`. -/
theorem bfsLoop_spec (g : Grid) (conn rows cols : ℤ) (seed : Pos) :
    ∀ (queue : List Pos) (visited : Finset Pos) (intr bnd : List Pixel),
      BfsInv g conn rows cols seed queue visited intr bnd →
      BfsFinal g conn rows cols seed
        (bfsLoop g conn rows cols queue visited intr bnd) := by
  intro queue visited intr bnd
  induction queue, visited, intr, bnd using bfsLoop.induct g conn rows cols
  case case1 =>
    rename_i visited intr bnd
    intro inv
    rw [show bfsLoop g conn rows cols [] visited intr bnd = ⟨intr, bnd⟩ from by
      rw [bfsLoop]]
    refine ⟨inv.intr_nodup, inv.bnd_nodup, inv.intr_bnd, ?_, ?_, ?_, ?_,
      inv.intr_nbs, ?_⟩
    · intro p hp
      rcases List.mem_map.mp hp with ⟨px, hpx, rfl⟩
      exact inv.intr_val px hpx
    · intro p hp
      rcases List.mem_map.mp hp with ⟨px, hpx, rfl⟩
      exact inv.bnd_val px hpx
    · intro p hp
      rcases List.mem_map.mp hp with ⟨px, hpx, rfl⟩
      exact inv.intr_reach px hpx
    · intro p hp
      induction hp with
      | base =>
        rcases inv.seed_mem with h | h
        · exact absurd h (List.not_mem_nil seed)
        · exact h
      | step hp1 hq hv ih =>
        rename_i p1 q1
        rcases List.mem_map.mp ih with ⟨px, hpx, hpos⟩
        have hq1 : q1 ∈ nbrList conn px.x px.y rows cols := by
          rw [show px.x = p1.1 from congrArg Prod.fst hpos,
            show px.y = p1.2 from congrArg Prod.snd hpos]
          exact hq
        have hvmem := inv.intr_closed px hpx q1 hq1 hv
        rcases inv.vis_cover q1 hvmem with h | h | h
        · exact absurd h (List.not_mem_nil q1)
        · exact h
        · rcases List.mem_map.mp h with ⟨py, hpy, hpe⟩
          exact absurd (hpe ▸ hv) (inv.bnd_val py hpy)
    · intro hseed p hp
      rcases List.mem_map.mp hp with ⟨px, hpx, rfl⟩
      exact (inv.inb hseed).2 px hpx
  case case2 =>
    intro inv
    rw [bfsLoop]
    rename_i ih
    exact ih (bfsInv_step _ _ _ _ _ _ _ _ _ _ inv)

/-- The invariant holds when the BFS starts with the seed in the queue and
already marked visited. -/
theorem bfsInv_init (g : Grid) (conn rows cols : ℤ) (seed : Pos) :
    BfsInv g conn rows cols seed [seed] {seed} [] [] := by
  refine ⟨by simp, by simp, by simp, by simp, by simp, by simp, by simp,
    by simp, by simp, ?_, by simp, by simp, by simp, by simp, ?_, by simp,
    by simp, by simp, ?_⟩
  · intro p hp
    rw [List.mem_singleton] at hp
    subst hp
    exact InteriorPos.base
  · intro p hp
    rw [Finset.mem_singleton] at hp
    subst hp
    exact Or.inl (List.mem_singleton_self p)
  · intro hseed
    refine ⟨?_, by simp⟩
    intro p hp
    rw [List.mem_singleton] at hp
    subst hp
    exact hseed

/-- Everything `BfsFinal` asserts holds of the hole `calculateHole` returns,
for every grid, connectivity, dimensions and seed. -/
theorem calculateHole_spec (g : Grid) (conn rows cols : ℤ) (seed : Pos) :
    BfsFinal g conn rows cols seed (calculateHole g conn rows cols seed) := by
  rw [calculateHole, bfsLoop_start]
  exact bfsLoop_spec g conn rows cols seed [seed] {seed} [] []
    (bfsInv_init g conn rows cols seed)

/-- A 1 × 2 test grid whose only sentinel cell is `(0, 0)`. -/
def gW : Grid := fun p => if p = (0, 0) then -1 else 0

/-- C1: for every grid with a sentinel-valued in-bounds seed, `calculateHole`
returns a hole whose interior pixels are all sentinel-valued, whose boundary
pixels are all non-sentinel, whose interior and boundary coordinate sets are
disjoint, and with no duplicated coordinate in either list. -/
theorem calculateHole_partition (g : Grid) (conn rows cols : ℤ) (seed : Pos)
    (hin : inBounds rows cols seed) (hseed : g seed = MISSING) :
    (∀ p ∈ (calculateHole g conn rows cols seed).intPos, g p = MISSING) ∧
    (∀ p ∈ (calculateHole g conn rows cols seed).bndPos, g p ≠ MISSING) ∧
    (∀ p ∈ (calculateHole g conn rows cols seed).intPos,
       p ∉ (calculateHole g conn rows cols seed).bndPos) ∧
    (calculateHole g conn rows cols seed).intPos.Nodup ∧
    (calculateHole g conn rows cols seed).bndPos.Nodup := by
  have h := calculateHole_spec g conn rows cols seed
  refine ⟨?_, h.bnd_val, h.intr_bnd, h.intr_nodup, h.bnd_nodup⟩
  intro p hp
  rcases h.intr_val p hp with h1 | rfl
  · exact h1
  · exact hseed

/-- Witness for C1 on a concrete 1 × 2 grid. -/
theorem calculateHole_partition_witness :
    (inBounds 1 2 ((0, 0) : Pos) ∧ gW (0, 0) = MISSING) ∧
    ((∀ p ∈ (calculateHole gW 4 1 2 (0, 0)).intPos, gW p = MISSING) ∧
     (∀ p ∈ (calculateHole gW 4 1 2 (0, 0)).bndPos, gW p ≠ MISSING) ∧
     (∀ p ∈ (calculateHole gW 4 1 2 (0, 0)).intPos,
        p ∉ (calculateHole gW 4 1 2 (0, 0)).bndPos) ∧
     (calculateHole gW 4 1 2 (0, 0)).intPos.Nodup ∧
     (calculateHole gW 4 1 2 (0, 0)).bndPos.Nodup) :=
  ⟨⟨by decide, by decide⟩,
   calculateHole_partition gW 4 1 2 (0, 0) (by decide) (by decide)⟩

/-- C6: with the same grid and sentinel-valued in-bounds seed, every interior
coordinate found by the 4-connected traversal is also found by the
8-connected traversal. -/
theorem calculateHole_conn_monotone (g : Grid) (rows cols : ℤ) (seed : Pos)
    (hin : inBounds rows cols seed) (hseed : g seed = MISSING) :
    ∀ p ∈ (calculateHole g 4 rows cols seed).intPos,
      p ∈ (calculateHole g 8 rows cols seed).intPos := by
  intro p hp
  exact (calculateHole_spec g 8 rows cols seed).reach_intr p
    ((calculateHole_spec g 4 rows cols seed).intr_reach p hp).mono_conn

/-- Witness for C6 on a concrete 1 × 2 grid. -/
theorem calculateHole_conn_monotone_witness :
    (inBounds 1 2 ((0, 0) : Pos) ∧ gW (0, 0) = MISSING) ∧
    (∀ p ∈ (calculateHole gW 4 1 2 (0, 0)).intPos,
       p ∈ (calculateHole gW 8 1 2 (0, 0)).intPos) :=
  ⟨⟨by decide, by decide⟩,
   calculateHole_conn_monotone gW 1 2 (0, 0) (by decide) (by decide)⟩

/-- C8: for an in-bounds seed, the number of pixels the BFS processes (each
processed pixel was enqueued exactly once, and `bfsLoop` being a terminating
Lean function witnesses termination) is at most `rows * cols`. -/
theorem calculateHole_length_bound (g : Grid) (conn rows cols : ℤ) (seed : Pos)
    (hin : inBounds rows cols seed) :
    ((calculateHole g conn rows cols seed).holePixels.length : ℤ) ≤
      rows * cols := by
  have h := calculateHole_spec g conn rows cols seed
  have hsub : (calculateHole g conn rows cols seed).intPos.toFinset ⊆
      cells rows cols := by
    intro p hp
    rw [List.mem_toFinset] at hp
    exact mem_cells.mpr (h.inb hin p hp)
  have hlen : (calculateHole g conn rows cols seed).intPos.length ≤
      (cells rows cols).card := by
    rw [← List.toFinset_card_of_nodup h.intr_nodup]
    exact Finset.card_le_card hsub
  have hcells : (cells rows cols).card = rows.toNat * cols.toNat := by
    rw [cells, Finset.card_product, Int.card_Ico, Int.card_Ico, sub_zero,
      sub_zero]
  have h0r : 0 ≤ rows := le_of_lt (lt_of_le_of_lt hin.1 hin.2.1)
  have h0c : 0 ≤ cols := le_of_lt (lt_of_le_of_lt hin.2.2.1 hin.2.2.2)
  have hmap : (calculateHole g conn rows cols seed).intPos.length =
      (calculateHole g conn rows cols seed).holePixels.length := by
    rw [Hole.intPos, List.length_map]
  rw [← hmap]
  calc ((calculateHole g conn rows cols seed).intPos.length : ℤ)
      ≤ ((cells rows cols).card : ℤ) := by exact_mod_cast hlen
    _ = rows * cols := by
        rw [hcells]
        push_cast
        rw [Int.toNat_of_nonneg h0r, Int.toNat_of_nonneg h0c]

/-- Witness for C8 on a concrete 1 × 2 grid. -/
theorem calculateHole_length_bound_witness :
    inBounds 1 2 ((0, 0) : Pos) ∧
    ((calculateHole gW 4 1 2 (0, 0)).holePixels.length : ℤ) ≤ 1 * 2 :=
  ⟨by decide, calculateHole_length_bound gW 4 1 2 (0, 0) (by decide)⟩

/-- Writing one value into the grid: `(*image)[p.x][p.y] = v`. -/
def updateGrid {α : Type} (img : Pos → α) (p : Pos) (v : α) : Pos → α :=
  fun q => if q = p then v else img q

theorem updateGrid_same {α : Type} (img : Pos → α) (p : Pos) (v : α) :
    updateGrid img p v p = v := by
  simp [updateGrid]

theorem updateGrid_other {α : Type} (img : Pos → α) (p q : Pos) (v : α)
    (h : q ≠ p) : updateGrid img p v q = img q := by
  simp [updateGrid, h]

/-- The inner loop of `fillImageHole` (HoleFilling.cpp lines 306-314): the
accumulated `(numerator, denominator)` pair over the boundary list. -/
def fillSums {α : Type} [Field α] (img : Pos → α) (w : Pixel → Pixel → α)
    (x : Pixel) (bnd : List Pixel) : α × α :=
  bnd.foldl (fun s y => (s.1 + w x y * img y.pos, s.2 + w x y)) (0, 0)

/-- The outer loop of `fillImageHole` over the interior pixels, threading the
in-place mutated image. -/
def fillLoop {α : Type} [Field α] (bnd : List Pixel) (w : Pixel → Pixel → α)
    (img : Pos → α) (l : List Pixel) : Pos → α :=
  l.foldl (fun gg x =>
    updateGrid gg x.pos ((fillSums gg w x bnd).1 / (fillSums gg w x bnd).2)) img

/-- `fillImageHole` (HoleFilling.cpp lines 299-319): for every pixel `x` of
`hole.getHolePixels()`, accumulate the weighted sum of the current values of
the boundary pixels and overwrite `x`'s cell with numerator/denominator.
The `assert(denominator != 0)` of the source is compiled out by the
`-DNDEBUG` flag of the Makefile, so the quotient is written unconditionally
(a division by zero in `float` yields NaN; in this rational model Lean's
division-by-zero convention yields 0). -/
def fillImageHole {α : Type} [Field α] (img : Pos → α) (hole : Hole)
    (w : Pixel → Pixel → α) : Pos → α :=
  fillLoop hole.holeBoundary w img hole.holePixels

/-- `defaultWeightedFunction` (HoleFilling.cpp lines 284-291), with
`std::pow` and `std::sqrt` injected as the abstract functions `powF` and
`sqrtF`, and the globals `z` and `epsilon` as parameters. -/
def defaultWeightedFunction {α : Type} [Field α] (sqrtF : α → α)
    (powF : α → α → α) (z epsilon : α) (lhs rhs : Pixel) : α :=
  let norm := powF ((lhs.x - rhs.x : ℤ) : α) 2 + powF ((lhs.y - rhs.y : ℤ) : α) 2
  let norm1 := sqrtF norm
  1 / (powF norm1 z + epsilon)

theorem fillSums_eq {α : Type} [Field α] (img : Pos → α)
    (w : Pixel → Pixel → α) (x : Pixel) (bnd : List Pixel) :
    fillSums img w x bnd =
      ((bnd.map fun y => w x y * img y.pos).sum, (bnd.map fun y => w x y).sum) := by
  have key : ∀ (l : List Pixel) (a b : α),
      l.foldl (fun s y => (s.1 + w x y * img y.pos, s.2 + w x y)) (a, b) =
        (a + (l.map fun y => w x y * img y.pos).sum,
         b + (l.map fun y => w x y).sum) := by
    intro l
    induction l with
    | nil => intro a b; simp
    | cons y l ih =>
      intro a b
      rw [List.foldl_cons, ih, List.map_cons, List.map_cons, List.sum_cons,
        List.sum_cons]
      ring_nf
  rw [fillSums, key, zero_add, zero_add]

theorem fillSums_congr {α : Type} [Field α] {img1 img2 : Pos → α}
    (w : Pixel → Pixel → α) (x : Pixel) (bnd : List Pixel)
    (hag : ∀ p ∈ bnd.map Pixel.pos, img1 p = img2 p) :
    fillSums img1 w x bnd = fillSums img2 w x bnd := by
  rw [fillSums_eq, fillSums_eq]
  have : (bnd.map fun y => w x y * img1 y.pos) =
      (bnd.map fun y => w x y * img2 y.pos) := by
    apply List.map_congr_left
    intro y hy
    rw [hag y.pos (List.mem_map_of_mem Pixel.pos hy)]
  rw [this]

/-- The fill never writes outside interior coordinates. -/
theorem fillLoop_frame {α : Type} [Field α] (bnd : List Pixel)
    (w : Pixel → Pixel → α) :
    ∀ (l : List Pixel) (img : Pos → α) (p : Pos), p ∉ l.map Pixel.pos →
      fillLoop bnd w img l p = img p := by
  intro l
  induction l with
  | nil => intro img p hp; rfl
  | cons x rest ih =>
    intro img p hp
    rw [List.map_cons, List.mem_cons, not_or] at hp
    rw [fillLoop, List.foldl_cons]
    exact (ih _ p hp.2).trans (updateGrid_other _ _ _ _ hp.1)

theorem fillLoop_nil {α : Type} [Field α] (bnd : List Pixel)
    (w : Pixel → Pixel → α) (img : Pos → α) : fillLoop bnd w img [] = img := rfl

theorem fillLoop_cons {α : Type} [Field α] (bnd : List Pixel)
    (w : Pixel → Pixel → α) (img : Pos → α) (x : Pixel) (rest : List Pixel) :
    fillLoop bnd w img (x :: rest) =
      fillLoop bnd w
        (updateGrid img x.pos ((fillSums img w x bnd).1 / (fillSums img w x bnd).2))
        rest := rfl

/-- The central fill lemma: when no boundary coordinate is an interior
coordinate, the value finally stored at the coordinate of an interior pixel
`x` whose coordinate does not recur later in the interior list is the
weighted average of the boundary values of the grid as it was when the fill
started. -/
theorem fillLoop_formula {α : Type} [Field α] (bnd : List Pixel)
    (w : Pixel → Pixel → α) :
    ∀ (l₁ : List Pixel) (x : Pixel) (l₂ : List Pixel) (img : Pos → α),
      (∀ p ∈ bnd.map Pixel.pos, p ∉ (l₁ ++ x :: l₂).map Pixel.pos) →
      x.pos ∉ l₂.map Pixel.pos →
      fillLoop bnd w img (l₁ ++ x :: l₂) x.pos =
        ((bnd.map fun y => w x y * img y.pos).sum) /
        ((bnd.map fun y => w x y).sum) := by
  intro l₁
  induction l₁ with
  | nil =>
    intro x l₂ img hdisj hlast
    rw [List.nil_append, fillLoop_cons,
      fillLoop_frame bnd w l₂ _ x.pos hlast, updateGrid_same, fillSums_eq]
  | cons a l₁ ih =>
    intro x l₂ img hdisj hlast
    rw [List.cons_append, fillLoop_cons]
    have hanotb : ∀ p ∈ bnd.map Pixel.pos, p ≠ a.pos := by
      intro p hp heq
      exact hdisj p hp (by
        rw [List.cons_append, List.map_cons]
        exact heq ▸ List.mem_cons_self a.pos _)
    have hag : ∀ p ∈ bnd.map Pixel.pos,
        updateGrid img a.pos ((fillSums img w a bnd).1 / (fillSums img w a bnd).2) p
          = img p := by
      intro p hp
      exact updateGrid_other _ _ _ _ (hanotb p hp)
    have hdisj1 : ∀ p ∈ bnd.map Pixel.pos, p ∉ (l₁ ++ x :: l₂).map Pixel.pos := by
      intro p hp hmem
      exact hdisj p hp (by
        rw [List.cons_append, List.map_cons]
        exact List.mem_cons_of_mem _ hmem)
    rw [ih x l₂ _ hdisj1 hlast]
    congr 1
    have hmapeq : (bnd.map fun y => w x y *
        updateGrid img a.pos ((fillSums img w a bnd).1 / (fillSums img w a bnd).2) y.pos)
        = bnd.map fun y => w x y * img y.pos := by
      apply List.map_congr_left
      intro y hy
      rw [hag y.pos (List.mem_map_of_mem Pixel.pos hy)]
    rw [hmapeq]

/-- The fill's output at boundary coordinates, at interior coordinates and
everywhere the two input grids agreed depends only on the input grids'
boundary values: grids that agree on every boundary coordinate produce fills
that agree there and at every written coordinate. -/
theorem fillLoop_boundary_dependence {α : Type} [Field α] (bnd : List Pixel)
    (w : Pixel → Pixel → α) :
    ∀ (l : List Pixel) (g1 g2 : Pos → α),
      (∀ p ∈ bnd.map Pixel.pos, g1 p = g2 p) →
      ∀ p : Pos, g1 p = g2 p ∨ p ∈ l.map Pixel.pos →
        fillLoop bnd w g1 l p = fillLoop bnd w g2 l p := by
  intro l
  induction l with
  | nil =>
    intro g1 g2 hag p hp
    rcases hp with h | h
    · exact h
    · exact absurd h (List.not_mem_nil p)
  | cons x rest ih =>
    intro g1 g2 hag p hp
    have hsums : fillSums g1 w x bnd = fillSums g2 w x bnd :=
      fillSums_congr w x bnd hag
    rw [fillLoop_cons, fillLoop_cons]
    have hag1 : ∀ q ∈ bnd.map Pixel.pos,
        updateGrid g1 x.pos ((fillSums g1 w x bnd).1 / (fillSums g1 w x bnd).2) q =
        updateGrid g2 x.pos ((fillSums g2 w x bnd).1 / (fillSums g2 w x bnd).2) q := by
      intro q hq
      by_cases hqx : q = x.pos
      · subst hqx
        rw [updateGrid_same, updateGrid_same, hsums]
      · rw [updateGrid_other _ _ _ _ hqx, updateGrid_other _ _ _ _ hqx]
        exact hag q hq
    apply ih _ _ hag1
    rcases hp with h | h
    · by_cases hqx : p = x.pos
      · subst hqx
        left
        rw [updateGrid_same, updateGrid_same, hsums]
      · left
        rw [updateGrid_other _ _ _ _ hqx, updateGrid_other _ _ _ _ hqx]
        exact h
    · rw [List.map_cons, List.mem_cons] at h
      rcases h with h | h
      · subst h
        left
        rw [updateGrid_same, updateGrid_same, hsums]
      · exact Or.inr h

theorem exists_last_occurrence {l : List Pixel} {p : Pos}
    (hp : p ∈ l.map Pixel.pos) :
    ∃ l₁ x l₂, l = l₁ ++ x :: l₂ ∧ x.pos = p ∧ p ∉ l₂.map Pixel.pos := by
  induction l with
  | nil => exact absurd hp (List.not_mem_nil p)
  | cons a rest ih =>
    by_cases hr : p ∈ rest.map Pixel.pos
    · obtain ⟨l₁, x, l₂, heq, hpos, hnot⟩ := ih hr
      exact ⟨a :: l₁, x, l₂, by rw [heq, List.cons_append], hpos, hnot⟩
    · rw [List.map_cons, List.mem_cons] at hp
      rcases hp with h | h
      · exact ⟨[], a, rest, rfl, h.symm, hr⟩
      · exact absurd h hr

/-- Pointwise characterisation of the fill for a weight function that
depends only on coordinates, when boundary and interior coordinates are
disjoint: each interior coordinate gets the weighted average of the original
boundary values, all other coordinates are untouched. -/
theorem fillLoop_pointwise {α : Type} [Field α] (bnd : List Pixel)
    (wP : Pos → Pos → α) (img : Pos → α) (l : List Pixel)
    (hdisj : ∀ p ∈ bnd.map Pixel.pos, p ∉ l.map Pixel.pos) (p : Pos) :
    fillLoop bnd (fun a b => wP a.pos b.pos) img l p =
      if p ∈ l.map Pixel.pos then
        ((bnd.map fun y => wP p y.pos * img y.pos).sum) /
        ((bnd.map fun y => wP p y.pos).sum)
      else img p := by
  split_ifs with hp
  · obtain ⟨l₁, x, l₂, heq, hpos, hnot⟩ := exists_last_occurrence hp
    subst heq
    rw [← hpos] at hnot ⊢
    rw [fillLoop_formula bnd (fun a b => wP a.pos b.pos) l₁ x l₂ img hdisj hnot]
  · exact fillLoop_frame bnd _ l img p hp

/-- Constant test grid: every cell is the sentinel (a 1 × 1 all-hole image). -/
def gOne : Grid := fun _ => -1

/-- Test grid: value 2 at `(1, 1)`, 0 elsewhere. -/
def gC : Grid := fun p => if p = (1, 1) then 2 else 0

/-- Test grid: value 4 at `(1, 1)`, 0 elsewhere. -/
def gD : Grid := fun p => if p = (1, 1) then 4 else 0

/-- A variant of `gW` that differs at the non-boundary cell `(5, 5)`. -/
def gW2 : Grid := fun p => if p = (0, 0) then -1 else if p = (5, 5) then 7 else 0

/-- A `Hole` record whose boundary list shares the coordinate `(0, 0)` with
its interior list. -/
def overlapHole : Hole :=
  Hole.mk [⟨0, 0, []⟩, ⟨0, 1, []⟩] [⟨0, 0, []⟩, ⟨1, 1, []⟩]

/-- C3 counterexample: on a `Hole` whose boundary list shares the coordinate
`(0, 0)` with the interior list, the in-place fill does not assign the
call-time weighted average: processing `(0, 0)` first overwrites a value the
computation for `(0, 1)` then reads. -/
theorem fillImageHole_not_calltime_average :
    fillImageHole gC overlapHole (fun _ _ => (1 : ℚ)) (0, 1) ≠
      (overlapHole.holeBoundary.map
        (fun y => (fun _ _ => (1 : ℚ)) (⟨0, 1, []⟩ : Pixel) y * gC y.pos)).sum /
      (overlapHole.holeBoundary.map
        (fun y => (fun _ _ => (1 : ℚ)) (⟨0, 1, []⟩ : Pixel) y)).sum := by
  have h : fillImageHole gC overlapHole (fun _ _ => (1 : ℚ)) (0, 1) = 3 / 2 := by
    norm_num [fillImageHole, fillLoop, fillSums, updateGrid, overlapHole, gC,
      Pixel.pos]
  rw [h]
  norm_num [overlapHole, gC, Pixel.pos]

/-- C3 amended: when the boundary coordinates are disjoint from the interior
coordinates (as holes produced by `calculateHole` are), the fill stores at
the coordinate of each interior pixel (whose coordinate does not recur later
in the interior list) the quotient of the boundary-weighted sums of the
call-time grid; and the default kernel, with `std::sqrt`/`std::pow` read as
their real counterparts, is exactly `1 / (dist^z + epsilon)`. -/
theorem fillImageHole_formula (α : Type) [Field α] (g : Pos → α) (hole : Hole)
    (w : Pixel → Pixel → α) (hne : hole.holeBoundary ≠ [])
    (hdisj : ∀ p ∈ hole.bndPos, p ∉ hole.intPos) :
    (∀ (l₁ : List Pixel) (x : Pixel) (l₂ : List Pixel),
       hole.holePixels = l₁ ++ x :: l₂ → x.pos ∉ l₂.map Pixel.pos →
       fillImageHole g hole w x.pos =
         ((hole.holeBoundary.map fun y => w x y * g y.pos).sum) /
         ((hole.holeBoundary.map fun y => w x y).sum)) ∧
    (∀ (z ε : ℝ) (a b : Pixel),
       defaultWeightedFunction Real.sqrt (fun s t => s ^ t) z ε a b =
         1 / (Real.sqrt (((a.x : ℝ) - (b.x : ℝ)) ^ 2 +
           ((a.y : ℝ) - (b.y : ℝ)) ^ 2) ^ z + ε)) := by
  constructor
  · intro l₁ x l₂ hsplit hlast
    rw [fillImageHole, hsplit]
    apply fillLoop_formula hole.holeBoundary w l₁ x l₂ g _ hlast
    rw [← hsplit]
    exact hdisj
  · intro z ε a b
    rw [defaultWeightedFunction]
    have h2 : ∀ t : ℝ, t ^ (2 : ℝ) = t ^ 2 := by
      intro t
      rw [show (2 : ℝ) = ((2 : ℕ) : ℝ) by norm_num, Real.rpow_natCast]
    simp only [h2]
    push_cast
    ring_nf

/-- A small `Hole` whose single interior coordinate `(0, 0)` is disjoint
from its single boundary coordinate `(0, 1)`. -/
def smallHole : Hole := Hole.mk [⟨0, 0, []⟩] [⟨0, 1, []⟩]

/-- Witness for the amended C3 on a concrete hole with disjoint interior and
boundary. -/
theorem fillImageHole_formula_witness :
    (smallHole.holeBoundary ≠ [] ∧
     (∀ p ∈ smallHole.bndPos, p ∉ smallHole.intPos)) ∧
    ((∀ (l₁ : List Pixel) (x : Pixel) (l₂ : List Pixel),
       smallHole.holePixels = l₁ ++ x :: l₂ →
       x.pos ∉ l₂.map Pixel.pos →
       fillImageHole gW smallHole (fun _ _ => (1 : ℚ)) x.pos =
         ((smallHole.holeBoundary.map
             (fun y => (fun _ _ => (1 : ℚ)) x y * gW y.pos)).sum) /
         ((smallHole.holeBoundary.map
             (fun y => (fun _ _ => (1 : ℚ)) x y)).sum)) ∧
     (∀ (z ε : ℝ) (a b : Pixel),
       defaultWeightedFunction Real.sqrt (fun s t => s ^ t) z ε a b =
         1 / (Real.sqrt (((a.x : ℝ) - (b.x : ℝ)) ^ 2 +
           ((a.y : ℝ) - (b.y : ℝ)) ^ 2) ^ z + ε))) :=
  ⟨⟨by decide, by decide⟩,
   fillImageHole_formula ℚ gW smallHole (fun _ _ => (1 : ℚ))
     (by decide) (by decide)⟩

/-- Evaluation of `calculateHole` on the 1 × 2 test grid: the hole is the
single interior pixel `(0, 0)` (carrying its neighbour `(0, 1)` once) with
the single boundary pixel `(0, 1)`. -/
theorem calculateHole_gW_eval :
    calculateHole gW 4 1 2 (0, 0) =
      Hole.mk [⟨0, 0, [(0, 1)]⟩] [⟨0, 1, []⟩] := by
  simp [calculateHole, bfsLoop, processNeighbours, setNeighbours,
    connectivityMask, nbStep4, nbStep8, gW, MISSING]

/-- C4: on a hole computed by `calculateHole` (with a sentinel in-bounds
seed), when the boundary is non-empty, epsilon is positive, the platform
square root and power functions are non-negative on non-negative inputs,
and the boundary values lie in `[0, 1]`, the fill leaves every coordinate
outside the hole interior (in particular every boundary coordinate)
unchanged and stores at every interior coordinate a value in `[0, 1]`,
hence a finite non-sentinel value. -/
theorem fillImageHole_output (g : Grid) (conn rows cols : ℤ) (seed : Pos)
    (sqrtF : ℚ → ℚ) (powF : ℚ → ℚ → ℚ) (z ε : ℚ)
    (hin : inBounds rows cols seed) (hseed : g seed = MISSING)
    (hε : 0 < ε) (hsqrt : ∀ a, 0 ≤ sqrtF a)
    (hpow : ∀ a b, 0 ≤ a → 0 ≤ powF a b)
    (hne : (calculateHole g conn rows cols seed).holeBoundary ≠ [])
    (hvals : ∀ p ∈ (calculateHole g conn rows cols seed).bndPos,
       0 ≤ g p ∧ g p ≤ 1) :
    (∀ p ∈ (calculateHole g conn rows cols seed).intPos,
       0 ≤ fillImageHole g (calculateHole g conn rows cols seed)
             (defaultWeightedFunction sqrtF powF z ε) p ∧
       fillImageHole g (calculateHole g conn rows cols seed)
             (defaultWeightedFunction sqrtF powF z ε) p ≤ 1 ∧
       fillImageHole g (calculateHole g conn rows cols seed)
             (defaultWeightedFunction sqrtF powF z ε) p ≠ MISSING) ∧
    (∀ p, p ∉ (calculateHole g conn rows cols seed).intPos →
       fillImageHole g (calculateHole g conn rows cols seed)
             (defaultWeightedFunction sqrtF powF z ε) p = g p) := by
  have hspec := calculateHole_spec g conn rows cols seed
  have hw : ∀ x y : Pixel, 0 < defaultWeightedFunction sqrtF powF z ε x y := by
    intro x y
    rw [defaultWeightedFunction]
    have h1 : 0 ≤ powF (sqrtF (powF ((x.x - y.x : ℤ) : ℚ) 2 +
        powF ((x.y - y.y : ℤ) : ℚ) 2)) z := hpow _ _ (hsqrt _)
    exact one_div_pos.mpr (by linarith)
  have hdisj : ∀ p ∈ (calculateHole g conn rows cols seed).bndPos,
      p ∉ (calculateHole g conn rows cols seed).intPos :=
    fun p hp hmem => hspec.intr_bnd p hmem hp
  constructor
  · intro p hp
    obtain ⟨l₁, x, l₂, hsplit, hpos, hlast⟩ := exists_last_occurrence hp
    have hval := (fillImageHole_formula ℚ g (calculateHole g conn rows cols seed)
      (defaultWeightedFunction sqrtF powF z ε) hne hdisj).1 l₁ x l₂ hsplit
      (hpos ▸ hlast)
    rw [hpos] at hval
    rw [hval]
    set bl := (calculateHole g conn rows cols seed).holeBoundary with hbl
    have hblne : (bl.map fun y => defaultWeightedFunction sqrtF powF z ε x y) ≠ [] := by
      intro hcon
      exact hne (List.map_eq_nil_iff.mp hcon)
    have hden : 0 < (bl.map fun y => defaultWeightedFunction sqrtF powF z ε x y).sum := by
      apply List.sum_pos _ _ hblne
      intro a ha
      rcases List.mem_map.mp ha with ⟨y, -, rfl⟩
      exact hw x y
    have hvy : ∀ y ∈ bl, 0 ≤ g y.pos ∧ g y.pos ≤ 1 := by
      intro y hy
      exact hvals y.pos (List.mem_map_of_mem Pixel.pos hy)
    have hnum0 : 0 ≤ (bl.map fun y =>
        defaultWeightedFunction sqrtF powF z ε x y * g y.pos).sum := by
      apply List.sum_nonneg
      intro a ha
      rcases List.mem_map.mp ha with ⟨y, hy, rfl⟩
      exact mul_nonneg (le_of_lt (hw x y)) (hvy y hy).1
    have hnumle : (bl.map fun y =>
        defaultWeightedFunction sqrtF powF z ε x y * g y.pos).sum ≤
        (bl.map fun y => defaultWeightedFunction sqrtF powF z ε x y).sum := by
      rw [show (bl.map fun y => defaultWeightedFunction sqrtF powF z ε x y)
          = bl.map ((fun y => defaultWeightedFunction sqrtF powF z ε x y)) from rfl]
      apply List.sum_le_sum
      intro y hy
      exact mul_le_of_le_one_right (le_of_lt (hw x y)) (hvy y hy).2
    have h0 : 0 ≤ (bl.map fun y =>
          defaultWeightedFunction sqrtF powF z ε x y * g y.pos).sum /
        (bl.map fun y => defaultWeightedFunction sqrtF powF z ε x y).sum :=
      div_nonneg hnum0 (le_of_lt hden)
    have h1 : (bl.map fun y =>
          defaultWeightedFunction sqrtF powF z ε x y * g y.pos).sum /
        (bl.map fun y => defaultWeightedFunction sqrtF powF z ε x y).sum ≤ 1 :=
      (div_le_one hden).mpr hnumle
    refine ⟨h0, h1, ?_⟩
    intro hcon
    rw [hcon] at h0
    norm_num [MISSING] at h0
  · intro p hp
    exact fillLoop_frame _ _ _ g p hp

/-- Witness for C4 on the concrete 1 × 2 grid with trivial platform
functions. -/
theorem fillImageHole_output_witness :
    (inBounds 1 2 ((0, 0) : Pos) ∧ gW (0, 0) = MISSING ∧ 0 < (1 : ℚ) ∧
     (calculateHole gW 4 1 2 (0, 0)).holeBoundary ≠ [] ∧
     (∀ p ∈ (calculateHole gW 4 1 2 (0, 0)).bndPos, 0 ≤ gW p ∧ gW p ≤ 1)) ∧
    ((∀ p ∈ (calculateHole gW 4 1 2 (0, 0)).intPos,
       0 ≤ fillImageHole gW (calculateHole gW 4 1 2 (0, 0))
             (defaultWeightedFunction (fun _ => 0) (fun _ _ => 0) 2 1) p ∧
       fillImageHole gW (calculateHole gW 4 1 2 (0, 0))
             (defaultWeightedFunction (fun _ => 0) (fun _ _ => 0) 2 1) p ≤ 1 ∧
       fillImageHole gW (calculateHole gW 4 1 2 (0, 0))
             (defaultWeightedFunction (fun _ => 0) (fun _ _ => 0) 2 1) p ≠ MISSING) ∧
     (∀ p, p ∉ (calculateHole gW 4 1 2 (0, 0)).intPos →
       fillImageHole gW (calculateHole gW 4 1 2 (0, 0))
             (defaultWeightedFunction (fun _ => 0) (fun _ _ => 0) 2 1) p = gW p)) :=
  ⟨⟨by decide, by decide, by norm_num,
    by rw [calculateHole_gW_eval]; decide,
    by rw [calculateHole_gW_eval]; decide⟩,
   fillImageHole_output gW 4 1 2 (0, 0) (fun _ => 0) (fun _ _ => 0) 2 1
     (by decide) (by decide) (by norm_num) (fun a => le_refl 0)
     (fun a b _ => le_refl 0)
     (by rw [calculateHole_gW_eval]; decide)
     (by rw [calculateHole_gW_eval]; decide)⟩

/-- C5: on the all-sentinel 1 × 1 grid, the hole from the only seed has an
empty boundary, the accumulated denominator for its single interior pixel is
0, and — because the Makefile compiles with `-DNDEBUG`, removing the
`assert(denominator != 0)` — the fill still completes and overwrites the
sentinel cell with the quotient `0 / 0` (NaN in the float build, 0 under
Lean's total division), instead of reporting any error. -/
theorem fillImageHole_zero_denominator_proceeds :
    calculateHole gOne 4 1 1 (0, 0) = Hole.mk [⟨0, 0, []⟩] [] ∧
    (fillSums gOne (fun _ _ => (1 : ℚ)) ⟨0, 0, []⟩
      (Hole.mk [⟨0, 0, []⟩] [] : Hole).holeBoundary).2 = 0 ∧
    fillImageHole gOne (Hole.mk [⟨0, 0, []⟩] []) (fun _ _ => (1 : ℚ)) (0, 0) = 0 ∧
    gOne (0, 0) = MISSING := by
  refine ⟨?_, by norm_num [fillSums], ?_, by norm_num [gOne, MISSING]⟩
  · simp [calculateHole, bfsLoop, processNeighbours, setNeighbours,
      connectivityMask, nbStep4, nbStep8, gOne, MISSING]
  · norm_num [fillImageHole, fillLoop, fillSums, updateGrid, Pixel.pos]

/-- C9 counterexample: with a `Hole` whose boundary shares a coordinate with
its interior, the result of the fill depends on the order in which the
interior pixels are processed. -/
theorem fillImageHole_order_dependent :
    fillImageHole gD (Hole.mk [⟨0, 0, []⟩, ⟨0, 1, []⟩] [⟨0, 0, []⟩, ⟨1, 1, []⟩])
        (fun _ _ => (1 : ℚ)) (0, 1) ≠
    fillImageHole gD (Hole.mk [⟨0, 1, []⟩, ⟨0, 0, []⟩] [⟨0, 0, []⟩, ⟨1, 1, []⟩])
        (fun _ _ => (1 : ℚ)) (0, 1) := by
  have h1 : fillImageHole gD
      (Hole.mk [⟨0, 0, []⟩, ⟨0, 1, []⟩] [⟨0, 0, []⟩, ⟨1, 1, []⟩])
      (fun _ _ => (1 : ℚ)) (0, 1) = 3 := by
    norm_num [fillImageHole, fillLoop, fillSums, updateGrid, gD, Pixel.pos]
  have h2 : fillImageHole gD
      (Hole.mk [⟨0, 1, []⟩, ⟨0, 0, []⟩] [⟨0, 0, []⟩, ⟨1, 1, []⟩])
      (fun _ _ => (1 : ℚ)) (0, 1) = 2 := by
    norm_num [fillImageHole, fillLoop, fillSums, updateGrid, gD, Pixel.pos]
  rw [h1, h2]
  norm_num

/-- C9 amended: (i) for every `Hole`, the values the fill writes at interior
coordinates (and the values at boundary coordinates) depend only on the
input grid's values at boundary coordinates; (ii) when additionally the
boundary coordinates are disjoint from the interior coordinates — as holes
computed by `calculateHole` are — and the weight function depends only on
coordinates, the result is independent of the processing order of the
interior pixels. -/
theorem fillImageHole_hyperproperty (α : Type) [Field α] :
    (∀ (g1 g2 : Pos → α) (hole : Hole) (w : Pixel → Pixel → α),
       (∀ p ∈ hole.bndPos, g1 p = g2 p) →
       ∀ p ∈ hole.intPos,
         fillImageHole g1 hole w p = fillImageHole g2 hole w p) ∧
    (∀ (g : Pos → α) (hole : Hole) (wP : Pos → Pos → α) (intr2 : List Pixel),
       (∀ p ∈ hole.bndPos, p ∉ hole.intPos) →
       intr2.Perm hole.holePixels →
       ∀ p : Pos,
         fillImageHole g (Hole.mk intr2 hole.holeBoundary)
           (fun a b => wP a.pos b.pos) p =
         fillImageHole g hole (fun a b => wP a.pos b.pos) p) := by
  constructor
  · intro g1 g2 hole w hag p hp
    exact fillLoop_boundary_dependence hole.holeBoundary w hole.holePixels
      g1 g2 hag p (Or.inr hp)
  · intro g hole wP intr2 hdisj hperm p
    have hmemiff : ∀ q : Pos, q ∈ intr2.map Pixel.pos ↔ q ∈ hole.intPos := by
      intro q
      exact (hperm.map Pixel.pos).mem_iff
    have hdisj2 : ∀ q ∈ hole.bndPos, q ∉ intr2.map Pixel.pos := by
      intro q hq hmem
      exact hdisj q hq ((hmemiff q).mp hmem)
    rw [show fillImageHole g (Hole.mk intr2 hole.holeBoundary)
        (fun a b => wP a.pos b.pos) p =
        fillLoop hole.holeBoundary (fun a b => wP a.pos b.pos) g intr2 p from rfl,
      show fillImageHole g hole (fun a b => wP a.pos b.pos) p =
        fillLoop hole.holeBoundary (fun a b => wP a.pos b.pos) g hole.holePixels p
        from rfl,
      fillLoop_pointwise hole.holeBoundary wP g intr2 hdisj2 p,
      fillLoop_pointwise hole.holeBoundary wP g hole.holePixels hdisj p]
    by_cases hp : p ∈ hole.intPos
    · rw [if_pos (show p ∈ List.map Pixel.pos intr2 from (hmemiff p).mpr hp),
        if_pos (show p ∈ List.map Pixel.pos hole.holePixels from hp)]
    · rw [if_neg (show p ∉ List.map Pixel.pos intr2 from
          fun hcon => hp ((hmemiff p).mp hcon)),
        if_neg (show p ∉ List.map Pixel.pos hole.holePixels from hp)]

/-- Witness for the amended C9: two grids agreeing on the boundary cell give
the same filled value, and a permuted interior list gives the same result. -/
theorem fillImageHole_hyperproperty_witness :
    ((∀ p ∈ smallHole.bndPos, gW p = gW2 p) ∧
     (∀ p ∈ smallHole.bndPos, p ∉ smallHole.intPos)) ∧
    ((∀ p ∈ smallHole.intPos,
        fillImageHole gW smallHole (fun _ _ => (1 : ℚ)) p =
        fillImageHole gW2 smallHole (fun _ _ => (1 : ℚ)) p) ∧
     (∀ p : Pos,
        fillImageHole gW (Hole.mk [⟨0, 0, []⟩] smallHole.holeBoundary)
          (fun a b => (fun _ _ => (1 : ℚ)) a.pos b.pos) p =
        fillImageHole gW smallHole
          (fun a b => (fun _ _ => (1 : ℚ)) a.pos b.pos) p)) :=
  ⟨⟨by decide, by decide⟩,
   ⟨fun p hp => (fillImageHole_hyperproperty ℚ).1 gW gW2 smallHole
      (fun _ _ => (1 : ℚ)) (by decide) p hp,
    (fillImageHole_hyperproperty ℚ).2 gW smallHole (fun _ _ => (1 : ℚ))
      [⟨0, 0, []⟩] (by decide) (List.Perm.refl _)⟩⟩

theorem count_eq_one_of_nodup_mem {q : Pos} {l : List Pos} (hnd : l.Nodup)
    (hq : q ∈ l) : List.count q l = 1 := by
  induction l with
  | nil => exact absurd hq (List.not_mem_nil q)
  | cons b l ih =>
    rw [List.count_cons]
    rcases List.mem_cons.mp hq with rfl | hql
    · rw [List.count_eq_zero.mpr (List.nodup_cons.mp hnd).1]
      simp
    · rw [ih (List.nodup_cons.mp hnd).2 hql]
      have hbq : b ≠ q := by
        rintro rfl
        exact (List.nodup_cons.mp hnd).1 hql
      simp [hbq]

theorem iterate_setNeighbours_x (conn rows cols : ℤ) (x y : ℤ) (k : ℕ) :
    (((fun p => setNeighbours p conn rows cols)^[k]) ⟨x, y, []⟩).x = x ∧
    (((fun p => setNeighbours p conn rows cols)^[k]) ⟨x, y, []⟩).y = y := by
  induction k with
  | zero => exact ⟨rfl, rfl⟩
  | succ k ih =>
    rw [Function.iterate_succ_apply', setNeighbours_x, setNeighbours_y]
    exact ih

/-- C10: `setNeighbours` appends without clearing.  (i) After `k` calls with
the same arguments on a pixel starting with no neighbours, each in-bounds
neighbour appears exactly `k` times in the neighbour list; (ii) each pixel
stored in the interior list of `calculateHole` carries its single-call
neighbour list, each neighbour exactly once; (iii) the doubled pixel the
BFS actually iterates over — `setNeighbours` applied twice, as
`calculateHole` does before scanning — carries each neighbour exactly
twice. -/
theorem setNeighbours_accumulates (conn x y rows cols : ℤ) (k : ℕ)
    (hx : 0 ≤ x ∧ x < rows) (hy : 0 ≤ y ∧ y < cols) :
    (∀ q ∈ nbrList conn x y rows cols,
       List.count q
         ((((fun p => setNeighbours p conn rows cols)^[k]) ⟨x, y, []⟩).neighbours)
         = k) ∧
    (∀ (g : Grid) (seed : Pos) (px : Pixel),
       px ∈ (calculateHole g conn rows cols seed).holePixels →
       px.neighbours = nbrList conn px.x px.y rows cols ∧
       ∀ q ∈ px.neighbours, List.count q px.neighbours = 1) ∧
    (∀ q ∈ nbrList conn x y rows cols,
       List.count q
         (setNeighbours (setNeighbours ⟨x, y, []⟩ conn rows cols) conn rows
           cols).neighbours = 2) := by
  have hcount1 : ∀ (a b : ℤ) (q : Pos), q ∈ nbrList conn a b rows cols →
      List.count q (nbrList conn a b rows cols) = 1 :=
    fun a b q hq => count_eq_one_of_nodup_mem (nbrList_nodup conn a b rows cols) hq
  refine ⟨?_, ?_, ?_⟩
  · intro q hq
    induction k with
    | zero => simp
    | succ k ih =>
      rw [Function.iterate_succ_apply', setNeighbours_neighbours,
        (iterate_setNeighbours_x conn rows cols x y k).1,
        (iterate_setNeighbours_x conn rows cols x y k).2,
        List.count_append, ih, hcount1 x y q hq]
  · intro g seed px hpx
    have hnb := (calculateHole_spec g conn rows cols seed).intr_nbs px hpx
    refine ⟨hnb, ?_⟩
    intro q hq
    rw [hnb] at hq ⊢
    exact hcount1 px.x px.y q hq
  · intro q hq
    rw [double_setNeighbours, List.count_append, hcount1 x y q hq]

/-- Witness for C10: three calls on the in-bounds pixel `(0, 0)` of a 2 × 2
image put its neighbour `(1, 0)` in the list three times; the interior pixel
of the 1 × 2 test hole carries its neighbour once; the doubled pixel carries
it twice. -/
theorem setNeighbours_accumulates_witness :
    ((0 ≤ (0 : ℤ) ∧ (0 : ℤ) < 2) ∧ (0 ≤ (0 : ℤ) ∧ (0 : ℤ) < 2) ∧
      ((1, 0) : Pos) ∈ nbrList 4 0 0 2 2 ∧
      (⟨0, 0, [(0, 1)]⟩ : Pixel) ∈ (calculateHole gW 4 1 2 (0, 0)).holePixels) ∧
    (List.count ((1, 0) : Pos)
       ((((fun p => setNeighbours p 4 2 2)^[3]) ⟨0, 0, []⟩).neighbours) = 3 ∧
     (⟨0, 0, [(0, 1)]⟩ : Pixel).neighbours = nbrList 4 0 0 1 2 ∧
     List.count ((1, 0) : Pos)
       (setNeighbours (setNeighbours ⟨0, 0, []⟩ 4 2 2) 4 2 2).neighbours = 2) :=
  ⟨⟨by decide, by decide, by decide, by rw [calculateHole_gW_eval]; decide⟩,
   ⟨(setNeighbours_accumulates 4 0 0 2 2 3 (by decide) (by decide)).1
      (1, 0) (by decide),
    ((setNeighbours_accumulates 4 0 0 1 2 0 (by decide) (by decide)).2.1
      gW (0, 0) ⟨0, 0, [(0, 1)]⟩ (by rw [calculateHole_gW_eval]; decide)).1,
    (setNeighbours_accumulates 4 0 0 2 2 0 (by decide) (by decide)).2.2
      (1, 0) (by decide)⟩⟩

/-- The row-major enumeration of the grid cells, the order of the nested
`for (x) for (y)` loops of `findMissingPixel`. -/
def rowMajorCells (rows cols : ℤ) : List Pos :=
  (List.range rows.toNat).flatMap
    (fun i => (List.range cols.toNat).map (fun j => (Int.ofNat i, Int.ofNat j)))

/-- Row-major (lexicographic) order on coordinates. -/
def lexLt (a b : Pos) : Prop := a.1 < b.1 ∨ (a.1 = b.1 ∧ a.2 < b.2)

theorem mem_rowMajorCells {rows cols : ℤ} {p : Pos} :
    p ∈ rowMajorCells rows cols ↔ inBounds rows cols p := by
  unfold inBounds
  rw [rowMajorCells, List.mem_flatMap]
  constructor
  · rintro ⟨i, hi, hp⟩
    rcases List.mem_map.mp hp with ⟨j, hj, rfl⟩
    rw [List.mem_range] at hi hj
    refine ⟨?_, ?_, ?_, ?_⟩ <;> simp only [Int.ofNat_eq_coe] <;> omega
  · rintro ⟨h1, h2, h3, h4⟩
    refine ⟨p.1.toNat, List.mem_range.mpr (by omega), ?_⟩
    apply List.mem_map.mpr
    refine ⟨p.2.toNat, List.mem_range.mpr (by omega), ?_⟩
    simp only [Int.ofNat_eq_coe]
    rw [Int.toNat_of_nonneg h1, Int.toNat_of_nonneg h3]

theorem rowMajorCells_sorted (rows cols : ℤ) :
    (rowMajorCells rows cols).Pairwise lexLt := by
  rw [rowMajorCells, List.pairwise_flatMap]
  constructor
  · intro i hi
    refine List.Pairwise.map (fun j => ((Int.ofNat i, Int.ofNat j) : Pos)) ?_
      (List.pairwise_lt_range cols.toNat)
    intro a b hab
    exact Or.inr ⟨rfl, by simp only [Int.ofNat_eq_coe]; exact_mod_cast hab⟩
  · apply List.Pairwise.imp _ (List.pairwise_lt_range rows.toNat)
    intro a b hab x hx y hy
    rcases List.mem_map.mp hx with ⟨j1, -, rfl⟩
    rcases List.mem_map.mp hy with ⟨j2, -, rfl⟩
    exact Or.inl (show (Int.ofNat a : ℤ) < Int.ofNat b by simp only [Int.ofNat_eq_coe]; exact_mod_cast hab)

/-- `findMissingPixel` (HoleFilling.cpp lines 182-196): scan the cells in
row-major order and return the first whose value is the sentinel; `none`
models the `NoMissingPixelException` thrown when the scan finds nothing. -/
def findMissingPixel (g : Grid) (rows cols : ℤ) : Option Pos :=
  (rowMajorCells rows cols).find? (fun p => g p = MISSING)

/-- The `try` block of `main` (HoleFilling.cpp lines 618-649): find a
missing pixel, compute the hole from it, and fill a copy of the image; when
`findMissingPixel` throws, the `catch` block returns without computing a
hole or filling anything. -/
def runPipeline (g : Grid) (rows cols conn : ℤ) (w : Pixel → Pixel → ℚ) :
    Option (Hole × (Pos → ℚ)) :=
  match findMissingPixel g rows cols with
  | none => none
  | some seed =>
    some (calculateHole g conn rows cols seed,
      fillImageHole g (calculateHole g conn rows cols seed) w)

/-- C2: `findMissingPixel` returns the first sentinel cell in row-major
order (every in-bounds cell strictly earlier in that order is non-sentinel),
reports the no-missing-pixel outcome exactly when no in-bounds cell is
sentinel-valued, and in that case the pipeline returns without running the
hole calculation or the fill. -/
theorem findMissingPixel_spec (g : Grid) (rows cols : ℤ) :
    (∀ p, findMissingPixel g rows cols = some p →
       inBounds rows cols p ∧ g p = MISSING ∧
       ∀ q, inBounds rows cols q → lexLt q p → g q ≠ MISSING) ∧
    (findMissingPixel g rows cols = none ↔
       ∀ p, inBounds rows cols p → g p ≠ MISSING) ∧
    (∀ (conn : ℤ) (w : Pixel → Pixel → ℚ),
       runPipeline g rows cols conn w = none ↔
       findMissingPixel g rows cols = none) := by
  refine ⟨?_, ?_, ?_⟩
  · intro p hp
    rw [findMissingPixel, List.find?_eq_some] at hp
    obtain ⟨hpv, as, bs, heq, hall⟩ := hp
    have hpv1 : g p = MISSING := of_decide_eq_true hpv
    have hpmem : p ∈ rowMajorCells rows cols := by
      rw [heq]
      exact List.mem_append_right as (List.mem_cons_self p bs)
    refine ⟨mem_rowMajorCells.mp hpmem, hpv1, ?_⟩
    intro q hq hlt
    have hqmem : q ∈ rowMajorCells rows cols := mem_rowMajorCells.mpr hq
    rw [heq] at hqmem
    have hsorted := rowMajorCells_sorted rows cols
    rw [heq, List.pairwise_append] at hsorted
    rcases List.mem_append.mp hqmem with hqa | hqb
    · have := hall q hqa
      simp only [Bool.not_eq_eq_eq_not, Bool.not_true, decide_eq_false_iff_not]
        at this
      exact this
    · rcases List.mem_cons.mp hqb with rfl | hqb1
      · exfalso
        rcases hlt with h | h
        · exact absurd rfl (ne_of_lt h)
        · exact absurd rfl (ne_of_lt h.2)
      · have hpq : lexLt p q := (List.pairwise_cons.mp hsorted.2.1).1 q hqb1
        exfalso
        rcases hlt with h | h <;> rcases hpq with h1 | h1 <;> omega
  · rw [findMissingPixel, List.find?_eq_none]
    constructor
    · intro h p hp
      have := h p (mem_rowMajorCells.mpr hp)
      simpa using this
    · intro h p hp
      simpa using h p (mem_rowMajorCells.mp hp)
  · intro conn w
    rw [runPipeline]
    cases hf : findMissingPixel g rows cols with
    | none => simp
    | some seed => simp

/-- Witness for C2: on the 1 × 2 test grid the scan finds `(0, 0)`, and on
the all-zero 1 × 1 grid it reports no missing pixel and the pipeline
returns without producing a hole. -/
theorem findMissingPixel_spec_witness :
    (findMissingPixel gW 1 2 = some (0, 0) ∧
       inBounds 1 2 ((0, 0) : Pos) ∧ gW (0, 0) = MISSING) ∧
    (findMissingPixel (fun _ => 0) 1 1 = none ∧
     runPipeline (fun _ => 0) 1 1 4 (fun _ _ => 1) = none) :=
  ⟨⟨by decide,
    ((findMissingPixel_spec gW 1 2).1 (0, 0) (by decide)).1,
    ((findMissingPixel_spec gW 1 2).1 (0, 0) (by decide)).2.1⟩,
   ⟨by decide,
    ((findMissingPixel_spec (fun _ => 0) 1 1).2.2 4 (fun _ _ => 1)).mpr
      (by decide)⟩⟩

/-- C7: for an in-bounds pixel `(x, y)` with an empty neighbour list, one
call to `setNeighbours` produces exactly the 4-connectivity offsets (plus,
when connectivity is 8, the diagonal offsets) that land strictly inside
`[0, rows) x [0, cols)`; every returned neighbour is in bounds and no
coordinate appears twice. -/
theorem setNeighbours_spec (c x y rows cols : ℤ)
    (hx : 0 ≤ x ∧ x < rows) (hy : 0 ≤ y ∧ y < cols) :
    (∀ q : Pos, q ∈ nbrList c x y rows cols ↔
       ((q = (x + 1, y) ∨ q = (x - 1, y) ∨ q = (x, y + 1) ∨ q = (x, y - 1)) ∨
        (c = 8 ∧ (q = (x + 1, y + 1) ∨ q = (x + 1, y - 1) ∨
          q = (x - 1, y + 1) ∨ q = (x - 1, y - 1)))) ∧
       inBounds rows cols q) ∧
    (∀ q ∈ nbrList c x y rows cols, inBounds rows cols q) ∧
    (nbrList c x y rows cols).Nodup := by
  refine ⟨?_, fun q hq => nbrList_inBounds hx hy q hq, nbrList_nodup c x y rows cols⟩
  intro q
  rw [mem_nbrList]
  unfold inBounds
  obtain ⟨hx1, hx2⟩ := hx
  obtain ⟨hy1, hy2⟩ := hy
  constructor
  · intro h
    rcases h with h | hc8
    · rcases h with ⟨rfl, hb⟩ | h
      · exact ⟨Or.inl (Or.inl rfl), by omega⟩
      rcases h with ⟨rfl, hb⟩ | h
      · exact ⟨Or.inl (Or.inr (Or.inl rfl)), by omega⟩
      rcases h with ⟨rfl, hb⟩ | ⟨rfl, hb⟩
      · exact ⟨Or.inl (Or.inr (Or.inr (Or.inl rfl))), by omega⟩
      · exact ⟨Or.inl (Or.inr (Or.inr (Or.inr rfl))), by omega⟩
    · obtain ⟨hc, h⟩ := hc8
      rcases h with ⟨rfl, hb⟩ | h
      · exact ⟨Or.inr ⟨hc, Or.inl rfl⟩, by omega⟩
      rcases h with ⟨rfl, hb⟩ | h
      · exact ⟨Or.inr ⟨hc, Or.inr (Or.inl rfl)⟩, by omega⟩
      rcases h with ⟨rfl, hb⟩ | ⟨rfl, hb⟩
      · exact ⟨Or.inr ⟨hc, Or.inr (Or.inr (Or.inr rfl))⟩, by omega⟩
      · exact ⟨Or.inr ⟨hc, Or.inr (Or.inr (Or.inl rfl))⟩, by omega⟩
  · intro h
    obtain ⟨hoff, hb⟩ := h
    rcases hoff with h | hc8
    · rcases h with rfl | h
      · exact Or.inl (Or.inl ⟨rfl, by omega⟩)
      rcases h with rfl | h
      · exact Or.inl (Or.inr (Or.inl ⟨rfl, by omega⟩))
      rcases h with rfl | rfl
      · exact Or.inl (Or.inr (Or.inr (Or.inl ⟨rfl, by omega⟩)))
      · exact Or.inl (Or.inr (Or.inr (Or.inr ⟨rfl, by omega⟩)))
    · obtain ⟨hc, h⟩ := hc8
      rcases h with rfl | h
      · exact Or.inr ⟨hc, Or.inl ⟨rfl, by omega⟩⟩
      rcases h with rfl | h
      · exact Or.inr ⟨hc, Or.inr (Or.inl ⟨rfl, by omega⟩)⟩
      rcases h with rfl | rfl
      · exact Or.inr ⟨hc, Or.inr (Or.inr (Or.inr ⟨rfl, by omega⟩))⟩
      · exact Or.inr ⟨hc, Or.inr (Or.inr (Or.inl ⟨rfl, by omega⟩))⟩

/-- Witness for C7: at the corner `(0, 0)` of a 2 × 2 grid with
connectivity 8, the neighbour `(1, 0)` is produced, the out-of-bounds
offset `(-1, 0)` is excluded, and the list has no duplicates. -/
theorem setNeighbours_spec_witness :
    ((1, 0) : Pos) ∈ nbrList 8 0 0 2 2 ∧
    ¬ (((-1, 0) : Pos) ∈ nbrList 8 0 0 2 2) ∧
    (nbrList 8 0 0 2 2).Nodup :=
  ⟨((setNeighbours_spec 8 0 0 2 2 (by decide) (by decide)).1 (1, 0)).mpr
      ⟨Or.inl (Or.inl rfl), by decide⟩,
   fun hmem =>
     absurd
       ((((setNeighbours_spec 8 0 0 2 2 (by decide) (by decide)).1 (-1, 0)).mp
         hmem).2) (by decide),
   (setNeighbours_spec 8 0 0 2 2 (by decide) (by decide)).2.2⟩

end HoleFilling
